import Mathlib

/-!
Verification development for the AlphaRenamer repository.

The two source modules embedded here are `app/rename_from_lexique.py`
(text normalisation, lexicon loading, filename resolution, the
directory-wide rename pass) and `app/alpha_renamer_gui.py` (the
field-extraction heuristics and the page validator).

Strings are modelled as `List Char`.  Python regular expressions are
embedded as executable scanning functions that reproduce the search
semantics (leftmost match, greedy/lazy quantifiers) of the concrete
patterns appearing in the source.  Unicode-dependent behaviour
(`unicodedata.normalize("NFD", ...)`, `str.upper`, the `\w`/`\s`/`\d`
classes) is modelled over ASCII plus the accented Latin letters that the
application's French document domain uses; the tables below list the
covered letters and combining marks.
-/

namespace AlphaRenamer

abbrev Str := List Char

/-- Python `\s` (ASCII part): the whitespace characters recognised by
`str.strip`, `str.split` and the `\s` class in the source's regexes. -/
def pyIsSpace (c : Char) : Bool :=
  c = ' ' || c = '\t' || c = '\n' || c = '\r' || c = '\x0b' || c = '\x0c'

/-- Accent table: (precomposed letter, base letter, combining mark).
Models `unicodedata.normalize("NFD", ...)` for the accented Latin
letters of the application's domain. -/
def accentTable : List (Char × Char × Char) :=
  [('à', 'a', '̀'), ('â', 'a', '̂'), ('ä', 'a', '̈'),
   ('é', 'e', '́'), ('è', 'e', '̀'), ('ê', 'e', '̂'),
   ('ë', 'e', '̈'), ('î', 'i', '̂'), ('ï', 'i', '̈'),
   ('ô', 'o', '̂'), ('ö', 'o', '̈'), ('ù', 'u', '̀'),
   ('û', 'u', '̂'), ('ü', 'u', '̈'), ('ç', 'c', '̧'),
   ('À', 'A', '̀'), ('Â', 'A', '̂'), ('Ä', 'A', '̈'),
   ('É', 'E', '́'), ('È', 'E', '̀'), ('Ê', 'E', '̂'),
   ('Ë', 'E', '̈'), ('Î', 'I', '̂'), ('Ï', 'I', '̈'),
   ('Ô', 'O', '̂'), ('Ö', 'O', '̈'), ('Ù', 'U', '̀'),
   ('Û', 'U', '̂'), ('Ü', 'U', '̈'), ('Ç', 'C', '̧')]

/-- Canonical decomposition of one character (NFD step of
`normalize_text`): a table character becomes base letter plus combining
mark, every other character is atomic. -/
def decompChar (c : Char) : Str :=
  match accentTable.find? (fun p => p.1 = c) with
  | some p => [p.2.1, p.2.2]
  | none => [c]

/-- The combining marks produced by `decompChar`
(`unicodedata.combining(c)` is nonzero exactly for these in the model). -/
def isCombining (c : Char) : Bool :=
  c = '̀' || c = '́' || c = '̂' || c = '̈' || c = '̧'

/-- `unicodedata.normalize("NFD", txt)` over the modelled alphabet. -/
def nfd (s : Str) : Str := s.flatMap decompChar

/-- `"".join(c for c in nfkd_form if not unicodedata.combining(c))`. -/
def stripMarks (s : Str) : Str := s.filter (fun c => !isCombining c)

/-- A letter of the accent table. -/
def isAccentedLetter (c : Char) : Bool := accentTable.any (fun p => p.1 = c)

/-- Python `\w` over the modelled alphabet: ASCII alphanumerics,
underscore and the accented Latin letters. -/
def wordChar (c : Char) : Bool :=
  c.isAlphanum || c = '_' || isAccentedLetter c

/-- Case table used for `str.upper` / `str.lower` beyond ASCII. -/
def caseTable : List (Char × Char) :=
  [('à', 'À'), ('â', 'Â'), ('ä', 'Ä'), ('é', 'É'), ('è', 'È'), ('ê', 'Ê'),
   ('ë', 'Ë'), ('î', 'Î'), ('ï', 'Ï'), ('ô', 'Ô'), ('ö', 'Ö'), ('ù', 'Ù'),
   ('û', 'Û'), ('ü', 'Ü'), ('ç', 'Ç')]

/-- Python `str.upper` on one character (ASCII plus the case table). -/
def pyUpperChar (c : Char) : Char :=
  match caseTable.find? (fun p => p.1 = c) with
  | some p => p.2
  | none => c.toUpper

/-- Python `str.lower` on one character (ASCII plus the case table). -/
def pyLowerChar (c : Char) : Char :=
  match caseTable.find? (fun p => p.2 = c) with
  | some p => p.1
  | none => c.toLower

def pyUpper (s : Str) : Str := s.map pyUpperChar

def pyLower (s : Str) : Str := s.map pyLowerChar

/-- Python `str.strip()`: drop whitespace from both ends. -/
def pyStrip (s : Str) : Str :=
  ((s.dropWhile pyIsSpace).reverse.dropWhile pyIsSpace).reverse

/-- Python `str.strip(ch)` for a single character argument. -/
def pyStripChar (ch : Char) (s : Str) : Str :=
  ((s.dropWhile (fun c => c = ch)).reverse.dropWhile (fun c => c = ch)).reverse

/-- One attempt of the pattern `\s*\([^)]*\)` anchored at the start of
`s`: greedy whitespace, an opening parenthesis, everything up to the
next closing parenthesis.  Returns what follows the match. -/
def parenMatchAt (s : Str) : Option Str :=
  match s.dropWhile pyIsSpace with
  | '(' :: tail =>
    match tail.dropWhile (fun c => c ≠ ')') with
    | ')' :: after => some after
    | _ => none
  | _ => none

/-- `re.sub(r"\s*\([^)]*\)", "", txt)`: left-to-right scan deleting each
non-overlapping match.  Fuelled by the input length (each match consumes
at least two characters). -/
def removeParensFuel : Nat → Str → Str
  | 0, s => s
  | _ + 1, [] => []
  | fuel + 1, c :: rest =>
    match parenMatchAt (c :: rest) with
    | some after => removeParensFuel fuel after
    | none => c :: removeParensFuel fuel rest

def removeParens (s : Str) : Str := removeParensFuel s.length s

/-- Keep-set of `re.sub(r"[^\w\s\.-]", " ", ...)`: word characters,
whitespace, dot and hyphen survive, everything else becomes a space. -/
def keepChar (c : Char) : Bool :=
  wordChar c || pyIsSpace c || c = '.' || c = '-'

def replaceNonWord (s : Str) : Str :=
  s.map (fun c => if keepChar c then c else ' ')

/-- `re.sub(p+, rep, s)` for a one-character class: every maximal run of
characters satisfying `p` is replaced by the single character `rep`.
Used for `\s+` → `" "` and `_+` → `"_"`. -/
def collapseRunAux (p : Char → Bool) (rep : Char) : Bool → Str → Str
  | _, [] => []
  | inRun, c :: rest =>
    if p c then
      if inRun then collapseRunAux p rep true rest
      else rep :: collapseRunAux p rep true rest
    else c :: collapseRunAux p rep false rest

def collapseRun (p : Char → Bool) (rep : Char) (s : Str) : Str :=
  collapseRunAux p rep false s

def collapseWs (s : Str) : Str := collapseRun pyIsSpace ' ' s

/-- `normalize_text` of `rename_from_lexique.py`: remove parenthesised
content, strip accents, replace non-word characters by spaces, collapse
whitespace and trim. -/
def normalize_text (s : Str) : Str :=
  pyStrip (collapseWs (replaceNonWord (stripMarks (nfd (removeParens s)))))

/-! ## Tokenisation and the lexicon (`rename_from_lexique.py`) -/

/-- `re.split(p+, s)` followed by dropping empty parts: accumulator
`cur` holds the current token reversed. -/
def splitOnPAux (p : Char → Bool) (cur : Str) : Str → List Str
  | [] => if cur = [] then [] else [cur.reverse]
  | c :: rest =>
    if p c then
      if cur = [] then splitOnPAux p [] rest
      else cur.reverse :: splitOnPAux p [] rest
    else splitOnPAux p (c :: cur) rest

def splitOnP (p : Char → Bool) (s : Str) : List Str := splitOnPAux p [] s

/-- `[t for t in re.split(r"_+", s) if t]`. -/
def splitTokens (s : Str) : List Str := splitOnP (fun c => c = '_') s

/-- Python `str.split()` (split on whitespace, dropping empties). -/
def splitWs (s : Str) : List Str := splitOnP pyIsSpace s

/-- Decimal value of a digit string (Python `int` on the matched text). -/
def strToNat (s : Str) : Nat :=
  s.foldl (fun n c => n * 10 + (c.toNat - '0'.toNat)) 0

def natToStr (n : Nat) : Str := (toString n).toList

/-- Key condition of `load_lexique`: a cell is skipped when its stripped
text is empty or equals "nan" case-insensitively. -/
def cellBlank (s : Str) : Bool := s = [] || pyLower s = ('n' :: 'a' :: 'n' :: [])

/-- The name cleaning of `load_lexique`:
`normalize_text` then `re.sub(r"\s+"," ", .)`, `.strip()`, `.upper()`. -/
def cleanNom (nom : Str) : Str :=
  pyUpper (pyStrip (collapseWs (normalize_text nom)))

/-- One row of the `load_lexique` loop.  The mapping is an association
list with Python-dict semantics: a later write for the same code
replaces the earlier one. -/
def addRow (m : List (Str × Str)) (code nom : Str) : List (Str × Str) :=
  let c := pyStrip code
  if cellBlank c then m
  else
    let n := pyStrip nom
    if cellBlank n then m
    else (m.filter (fun kv => kv.1 ≠ c)) ++ [(c, cleanNom n)]

/-- `load_lexique` on a table already projected to its (NOCLI, NOMCLI)
cell pairs (cells as the `str(...)` of their contents).  Fails when no
usable row remains, as the source raises `LexiqueError` then. -/
def load_lexique (rows : List (Str × Str)) : Except Str (List (Str × Str)) :=
  let mapping := rows.foldl (fun m r => addRow m r.1 r.2) []
  if mapping = [] then .error ('e' :: 'm' :: 'p' :: 't' :: 'y' :: [])
  else .ok mapping

/-- `re.fullmatch(r"\d{4}", t)` and `1900 <= int(t) <= 2100`. -/
def isYearTok (t : Str) : Bool :=
  t.length = 4 && t.all Char.isDigit && 1900 ≤ strToNat t && strToNat t ≤ 2100

def find_year_aux (i : Nat) (acc : Option Nat) : List Str → Option Nat
  | [] => acc
  | t :: rest => find_year_aux (i + 1) (if isYearTok t then some i else acc) rest

/-- `find_year_token`: index of the last token that looks like a year. -/
def find_year_token (tokens : List Str) : Option Nat :=
  find_year_aux 0 none tokens

/-! ## The filename resolver (`rename_file`) -/

def keysOf (m : List (Str × Str)) : List Str := m.map (fun kv => kv.1)

def findCodeIdxAux (m : List (Str × Str)) (i : Nat) : List Str → Option Nat
  | [] => none
  | t :: rest =>
    if (keysOf m).contains t then some i else findCodeIdxAux m (i + 1) rest

/-- The `for i, t in enumerate(tokens): if t in codes: break` scan. -/
def findCodeIdx (tokens : List Str) (m : List (Str × Str)) : Option Nat :=
  findCodeIdxAux m 0 tokens

/-- `lexique_mapping.get(k, dflt)`. -/
def lookupMap (m : List (Str × Str)) (k dflt : Str) : Str :=
  match m.find? (fun kv => kv.1 = k) with
  | some kv => kv.2
  | none => dflt

/-- The token reconstruction of `rename_file` (lines 100-114): prefix,
client block `[code, name]`, the year token when present (`if
year_token:` is Python truthiness, hence the emptiness test), then the
tokens after the year. -/
def new_tokens_of (tokens : List Str) (m : List (Str × Str)) : List Str :=
  match findCodeIdx tokens m with
  | none => tokens
  | some c =>
    let codeValue := tokens.getD c []
    let prefixTokens := tokens.take c
    let client := [codeValue, lookupMap m codeValue codeValue]
    match find_year_token tokens with
    | some y =>
      let yearTok := tokens.getD y []
      prefixTokens ++ client ++ (if yearTok ≠ [] then [yearTok] else [])
        ++ tokens.drop (y + 1)
    | none => prefixTokens ++ client

/-- Python `"_".join(tokens)`. -/
def joinUnderscore : List Str → Str
  | [] => []
  | [t] => t
  | t :: ts => t ++ '_' :: joinUnderscore ts

/-- `new_base = re.sub(r"_+", "_", "_".join(new_tokens)).strip("_")`. -/
def joinBase (newTokens : List Str) : Str :=
  pyStripChar '_' (collapseRun (fun c => c = '_') '_' (joinUnderscore newTokens))

/-- The name `rename_file` proposes before collision resolution. -/
def proposedName (base ext : Str) (m : List (Str × Str)) : Str :=
  joinBase (new_tokens_of (splitTokens (normalize_text base)) m) ++ ext

def versionName (newBase : Str) (i : Nat) (ext : Str) : Str :=
  newBase ++ ('_' :: 'v' :: []) ++ natToStr i ++ ext

/-- The `while True` collision probe (`_v2`, `_v3`, ...).  Fuelled; the
fuel used below (`existing.length + 1`) always suffices because the
candidates are pairwise distinct and `existing` is finite. -/
def findFreeName (existing : List Str) (newBase ext : Str) : Nat → Nat → Str
  | 0, i => versionName newBase i ext
  | fuel + 1, i =>
    let cand := versionName newBase i ext
    if existing.contains cand then findFreeName existing newBase ext fuel (i + 1)
    else cand

/-- `rename_file`: the filesystem directory is modelled by `existing`,
the list of names already present next to the file.  Returns the status
string and, when renaming, the chosen destination name. -/
def rename_file (existing : List Str) (base ext : Str) (m : List (Str × Str)) :
    Str × Option Str :=
  let filename := base ++ ext
  let tokens := splitTokens (normalize_text base)
  if tokens = [] then (('s' :: 'k' :: 'i' :: 'p' :: 'p' :: 'e' :: 'd' :: []), none)
  else
    let newBase := joinBase (new_tokens_of tokens m)
    let newName := newBase ++ ext
    if newName = filename then
      (('s' :: 'k' :: 'i' :: 'p' :: 'p' :: 'e' :: 'd' :: []), none)
    else
      let finalName :=
        if existing.contains newName then
          findFreeName existing newBase ext (existing.length + 1) 2
        else newName
      (('r' :: 'e' :: 'n' :: 'a' :: 'm' :: 'e' :: 'd' :: []), some finalName)

/-! ## The directory-wide rename pass (`rename_with_lexique`) -/

/-- One file met by the `folder.rglob("*")` walk: whether it is a
directory, its path components relative to the root, its extension, and
the outcome of `rename_file` on it (`.error` models an exception raised
while resolving or renaming it). -/
structure FsEntry where
  isDir : Bool
  relParts : List Str
  ext : Str
  result : Except Str Str

/-- The skip conditions of the walk body (lines 160-166). -/
def eligibleEntry (allowed skipSet : List Str) (f : FsEntry) : Bool :=
  !f.isDir
    && !(f.relParts.any (fun p => skipSet.contains (pyLower p)))
    && allowed.contains ((pyLower f.ext).dropWhile (fun c => c = '.'))

/-- `rename_with_lexique` after the lexicon has loaded: the walk with
its try/except, returning `(renamed, skipped, errors)`. -/
def rename_with_lexique (entries : List FsEntry) (allowedExt skipDirs : List Str) :
    Nat × Nat × Nat :=
  let allowed := allowedExt.map (fun e => (pyLower e).dropWhile (fun c => c = '.'))
  let skipSet := skipDirs.map pyLower
  entries.foldl
    (fun acc f =>
      if eligibleEntry allowed skipSet f then
        match f.result with
        | .ok st =>
          if st = ('r' :: 'e' :: 'n' :: 'a' :: 'm' :: 'e' :: 'd' :: []) then
            (acc.1 + 1, acc.2.1, acc.2.2)
          else (acc.1, acc.2.1 + 1, acc.2.2)
        | .error _ => (acc.1, acc.2.1, acc.2.2 + 1)
      else acc)
    (0, 0, 0)

/-! ## Client-code extraction (`alpha_renamer_gui.py`, RE_CODE / RE_CODE5) -/

/-- `\s*/\s*(\d{5})` continuation after the colon of RE_CODE: skip
greedy whitespace, a slash, greedy whitespace, capture five digits.  The
pattern ends after the fifth digit, so what follows is unconstrained. -/
def afterSlash (s : Str) : Option Str :=
  match s.dropWhile pyIsSpace with
  | a :: b :: c :: d :: e :: _ =>
    if (a :: b :: c :: d :: e :: []).all Char.isDigit then
      some (a :: b :: c :: d :: e :: [])
    else none
  | _ => none

def afterColon (s : Str) : Option Str :=
  match s.dropWhile pyIsSpace with
  | '/' :: rest => afterSlash rest
  | _ => none

/-- The lazy `.*?:` of RE_CODE: try each colon left to right; `.` does
not cross a newline. -/
def findColon : Str → Option Str
  | [] => none
  | c :: rest =>
    if c = '\n' then none
    else if c = ':' then
      match afterColon rest with
      | some code => some code
      | none => findColon rest
    else findColon rest

/-- RE_CODE anchored at the current position: the literal
`Codification` case-insensitively, then `.*?:\s*/\s*(\d{5})`. -/
def codifHere (s : Str) : Option Str :=
  if (s.take 12).map pyLowerChar = ("codification".toList) then findColon (s.drop 12)
  else none

/-- `RE_CODE.search`: leftmost start position whose full match succeeds. -/
def searchCodif : Str → Option Str
  | [] => none
  | c :: rest =>
    match codifHere (c :: rest) with
    | some code => some code
    | none => searchCodif rest

/-- The word boundary `\b` before a digit: the previous character
(`none` at the start of the text) must not be a word character. -/
def prevNotWord : Option Char → Bool
  | none => true
  | some p => !wordChar p

/-- The word boundary `\b` after a digit: the next character (if any)
must not be a word character. -/
def headNotWord (l : Str) : Bool :=
  match l.head? with
  | some c => !wordChar c
  | none => true

/-- `\b(\d{5})\b` anchored at the current position; `prev` is the
character before it (`none` at the start of the text). -/
def code5At (prev : Option Char) (s : Str) : Option Str :=
  if 5 ≤ s.length && (s.take 5).all Char.isDigit
      && prevNotWord prev && headNotWord (s.drop 5) then
    some (s.take 5)
  else none

def findCode5Aux (prev : Option Char) : Str → Option Str
  | [] => none
  | c :: rest =>
    match code5At prev (c :: rest) with
    | some code => some code
    | none => findCode5Aux (some c) rest

/-- `RE_CODE5.search`: first standalone five-digit run. -/
def findCode5 (s : Str) : Option Str := findCode5Aux none s

/-- The code-extraction cascade of `extract_fields_from_text`
(lines 121-129): the labelled form first, then the standalone run. -/
def extract_code (txt : Str) : Option Str :=
  match searchCodif txt with
  | some code => some code
  | none => findCode5 txt

/-! ## Operation number and year (`RE_OP`, `RE_AN`) -/

/-- Continuation of RE_OP after the word `OPERATION`:
`\s*N[°º]?\s*([A-Z0-9]+)` with IGNORECASE; the whitespace skips are
greedy and deterministic, the optional degree sign cannot rescue a
failed alphanumeric run (it is neither whitespace nor alphanumeric). -/
def opAfterWord (s : Str) : Option Str :=
  match s.dropWhile pyIsSpace with
  | n :: rest =>
    if pyLowerChar n = 'n' then
      let afterDeg := match rest with
        | d :: r => if d = '°' || d = 'º' then r else rest
        | [] => rest
      let run := (afterDeg.dropWhile pyIsSpace).takeWhile Char.isAlphanum
      if run = [] then none else some run
    else none
  | [] => none

/-- RE_OP anchored at the current position: `OP[ÉE]RATION` read
case-insensitively, then `opAfterWord`. -/
def opHere (s : Str) : Option Str :=
  match s with
  | c1 :: c2 :: c3 :: rest =>
    if pyLowerChar c1 = 'o' && pyLowerChar c2 = 'p'
        && (pyLowerChar c3 = 'e' || pyLowerChar c3 = 'é')
        && (rest.take 6).map pyLowerChar = ("ration".toList) then
      opAfterWord (rest.drop 6)
    else none
  | _ => none

/-- `RE_OP.search(txt)` returning the captured group. -/
def searchOp : Str → Option Str
  | [] => none
  | c :: rest =>
    match opHere (c :: rest) with
    | some op => some op
    | none => searchOp rest

/-- `RE_AN.findall`: all non-overlapping `\b(20\d{2})\b` matches,
scanning left to right and resuming after each match. -/
def findYearsAux (prev : Option Char) (s : Str) : List Str :=
  match s with
  | [] => []
  | a :: b :: c :: d :: rest2 =>
    if a = '2' && b = '0' && c.isDigit && d.isDigit
        && (match prev with | none => true | some p => !wordChar p)
        && (match rest2 with | [] => true | r :: _ => !wordChar r) then
      (a :: b :: c :: d :: []) :: findYearsAux (some d) rest2
    else findYearsAux (some a) (b :: c :: d :: rest2)
  | a :: rest => findYearsAux (some a) rest
termination_by s.length

def findYears (txt : Str) : List Str := findYearsAux none txt

/-- `str(max(years))` over the found year strings, `None` when none. -/
def maxYear (txt : Str) : Option Str :=
  match (findYears txt).map strToNat with
  | [] => none
  | y :: ys => some (natToStr (ys.foldl Nat.max y))

/-! ## The name heuristics of `extract_fields_from_text` -/

/-- Python `splitlines` (modelled for `\n`, `\r\n` and `\r`). -/
def splitLinesAux (cur : Str) : Str → List Str
  | [] => if cur = [] then [] else [cur.reverse]
  | '\r' :: '\n' :: rest => cur.reverse :: splitLinesAux [] rest
  | '\n' :: rest => cur.reverse :: splitLinesAux [] rest
  | '\r' :: rest => cur.reverse :: splitLinesAux [] rest
  | c :: rest => splitLinesAux (c :: cur) rest

/-- `[l.strip() for l in txt.splitlines() if l.strip()]`. -/
def linesOf (txt : Str) : List Str :=
  ((splitLinesAux [] txt).map pyStrip).filter (fun l => l ≠ [])

/-- The street-name vocabulary of RE_STREET_HINT, with each optional
piece (`AV\.?`, `ALL(?:EE|ÉE)S?`, `ROND[ -]?POINT`, `C\.C\.?`)
expanded into its concrete alternatives. -/
def streetWords : List Str :=
  ["RUE", "AVENUE", "AV", "AV.", "AVE", "AVE.", "BD", "BOULEVARD", "PLACE",
   "CHEMIN", "IMPASSE", "ALLEE", "ALLEES", "ALLÉE", "ALLÉES", "QUAI",
   "ROUTE", "PL", "SQUARE", "PASSAGE", "PROMENADE", "VOIE",
   "RONDPOINT", "ROND POINT", "ROND-POINT", "C.C", "C.C.", "CC"].map String.toList

/-- The trailing `\b` after an alternative `w`: a boundary needs exactly
one word character on the two sides.  All alternatives end in a word
character except those ending in a dot. -/
def boundaryAfter (w rest : Str) : Bool :=
  if wordChar (w.getLastD ' ') then
    match rest with
    | [] => true
    | r :: _ => !wordChar r
  else
    match rest with
    | [] => false
    | r :: _ => wordChar r

/-- One position of `RE_STREET_HINT.search`: some alternative matches
here (case-insensitively) with word boundaries on both sides. -/
def streetHintAt (prev : Option Char) (s : Str) : Bool :=
  streetWords.any (fun w =>
    pyUpper (s.take w.length) = w
      && (match prev with | none => true | some p => !wordChar p)
      && boundaryAfter w (s.drop w.length))

def streetSearchAux (prev : Option Char) : Str → Bool
  | [] => false
  | c :: rest => streetHintAt prev (c :: rest) || streetSearchAux (some c) rest

/-- `RE_STREET_HINT.search(s) is not None`. -/
def streetSearch (s : Str) : Bool := streetSearchAux none s

/-- `re.match(r"^\d{1,4}[A-Z]", s, re.IGNORECASE)`: one to four leading
digits directly followed by an ASCII letter. -/
def digitsThenLetter (s : Str) : Bool :=
  let run := (s.takeWhile Char.isDigit).length
  1 ≤ run && run ≤ 4 && (match s.get? run with
    | some c => c.isAlpha
    | none => false)

/-- `is_street_line` (lines 158-171). -/
def isStreetLine (line : Str) : Bool :=
  let s := pyStrip line
  if s = [] then false
  else
    let firstTok := (splitWs s).headD []
    if firstTok ≠ [] && firstTok.all Char.isDigit then true
    else if digitsThenLetter s then true
    else streetSearch s

/-- `l0.upper() in ("G20", "G 20", "G‑20", "G–20")` (the last two use
U+2011 and U+2013). -/
def g20Check (l0 : Str) : Bool :=
  let u := pyUpper l0
  u = ("G20".toList) || u = ("G 20".toList)
    || u = ("G‑" ++ "20").toList || u = ("G–" ++ "20").toList

/-- Character class of the banner line test
`[A-Z0-9À-ÖØ-Ý '&()\-./:*]{2,}`. -/
def bannerChar (c : Char) : Bool :=
  ('A' ≤ c && c ≤ 'Z') || c.isDigit || ('À' ≤ c && c ≤ 'Ö') || ('Ø' ≤ c && c ≤ 'Ý')
    || c = ' ' || c = '\'' || c = '&' || c = '(' || c = ')' || c = '-'
    || c = '.' || c = '/' || c = ':' || c = '*'

def l0Class (l0 : Str) : Bool := 2 ≤ l0.length && l0.all bannerChar

/-- `RE_POSTAL.search(l) is not None or l.lower().startswith("paris le")`. -/
def endLineOk (l : Str) : Bool :=
  (findCode5 l).isSome || List.isPrefixOf ("paris le".toList) (pyLower l)

/-- Guarded line access: `.error` models an IndexError. -/
def getLine (lines : List Str) (i : Nat) : Except Unit Str :=
  match lines.get? i with
  | some l => .ok l
  | none => .error ()

/-- The address-block loop (lines 174-206): for each window start `i`,
the four-line test first, then the relaxed five-line test guarded by
`i + 4 < len(lines)`.  Every line access is bounds-checked so that the
totality theorem below certifies the source's index arithmetic. -/
def scan45 (lines : List Str) : List Nat → Except Unit (Option Str)
  | [] => .ok none
  | i :: is =>
    match getLine lines i, getLine lines (i + 1), getLine lines (i + 2),
        getLine lines (i + 3) with
    | .ok l0, .ok l1, .ok l2, .ok l3 =>
      let hasG20 := g20Check l0
      let l0ok := hasG20 || l0Class l0
      if l0ok && isStreetLine l2 && endLineOk l3 then
        .ok (some (if hasG20 then l1 else l0))
      else if i + 4 < lines.length then
        match getLine lines (i + 4) with
        | .ok l4 =>
          if l0ok && (isStreetLine l2 || isStreetLine l3) && endLineOk l4 then
            .ok (some (if hasG20 then l1 else l0))
          else scan45 lines is
        | .error _ => .error ()
      else scan45 lines is
    | _, _, _, _ => .error ()

/-- The best-line fold of the fallback heuristic (lines 210-218),
with its running index made explicit. -/
def fallbackClass (c : Char) : Bool :=
  ('A' ≤ c && c ≤ 'Z') || c.isDigit || ('À' ≤ c && c ≤ 'Ö') || ('Ø' ≤ c && c ≤ 'Ý')
    || c = ' ' || c = '\'' || c = '(' || c = ')' || c = '-' || c = '.'
    || c = ',' || c = '/' || c = '*' || c = ':'

/-- One line of the best-candidate fold. -/
def fallbackStep (idx : Nat) (acc : Option (Str × Nat)) (ln : Str) : Option (Str × Nat) :=
  if ln.length < 3 then acc
  else if ln.all fallbackClass && !(ln ≠ [] && ln.all Char.isDigit) then
    match acc with
    | none => some (ln, idx)
    | some (b, _) => if ln.length > b.length then some (ln, idx) else acc
  else acc

def fallbackBestAux (idx : Nat) (acc : Option (Str × Nat)) : List Str → Option (Str × Nat)
  | [] => acc
  | ln :: rest => fallbackBestAux (idx + 1) (fallbackStep idx acc ln) rest

/-- `enumerate(lines[:120])` with the best-candidate selection. -/
def fallbackBest (lines : List Str) : Option (Str × Nat) :=
  fallbackBestAux 0 none (lines.take 120)

/-- The digit-start adjustment of the fallback (lines 219-227): when
the candidate starts with a digit and a previous line exists, use that
previous line when it is non-blank. -/
def fallbackNomE (lines : List Str) : Except Unit (Option Str) :=
  match fallbackBest lines with
  | none => .ok none
  | some (best, bestIdx) =>
    let stripped := best.dropWhile pyIsSpace
    if (match stripped with | c :: _ => c.isDigit | [] => false) && 0 < bestIdx then
      match getLine lines (bestIdx - 1) with
      | .ok prevLine =>
        let prev := pyStrip prevLine
        .ok (some (if prev ≠ [] then prev else best))
      | .error _ => .error ()
    else .ok (some best)

/-! ## `extract_fields_from_text` and the page validator -/

structure PageInfo where
  op : Option Str
  code : Option Str
  nom : Option Str
  an : Option Str
  note : Str
deriving DecidableEq, Repr

/-- Python truthiness of an optional string (`if not nom:`). -/
def truthy : Option Str → Bool
  | none => false
  | some s => s ≠ []

/-- `extract_fields_from_text(txt, bold_lines)`.  The `bold_lines`
argument is accepted and ignored, as in the source, where the local
`is_bold` helper is defined but never called. -/
def extract_fields_from_text (txt : Str) (boldLines : List Str) :
    Except Unit PageInfo :=
  let lines := linesOf txt
  match scan45 lines (List.range (lines.length - 3)) with
  | .error e => .error e
  | .ok scanNom =>
    let nomStep : Except Unit (Option Str) :=
      if truthy scanNom then .ok scanNom
      else
        match fallbackNomE lines with
        | .error e => .error e
        | .ok fb => .ok (match fb with | some f => some f | none => scanNom)
    match nomStep with
    | .error e => .error e
    | .ok nom =>
      .ok { op := searchOp txt, code := extract_code txt, nom := nom,
            an := maxYear txt, note := ("PDF text v20251118-2".toList) }

/-- The name-rejection guard of `split_and_process` (lines 266-269):
a truthy name whose stripped upper-case form starts with `DÉSIGNATION`
or `DESIGNATION` is nulled out. -/
def validate_nom (info : PageInfo) : PageInfo :=
  match info.nom with
  | none => info
  | some nm =>
    if nm = [] then info
    else
      let up := pyUpper (pyStrip nm)
      if List.isPrefixOf ("DÉSIGNATION".toList) up
          || List.isPrefixOf ("DESIGNATION".toList) up then
        { info with nom := none }
      else info

/-- `info.op and info.code and info.nom and info.an` (line 271):
the record routes to the success branch exactly when this holds,
otherwise to the `_ERREURS` triage branch. -/
def isComplete (info : PageInfo) : Bool :=
  truthy info.op && truthy info.code && truthy info.nom && truthy info.an

/-! ## Year-token characterisation -/

/-- Index of the last year-like token, in direct recursive form. -/
def lastYearIdx : List Str → Option Nat
  | [] => none
  | t :: rest =>
    match lastYearIdx rest with
    | some k => some (k + 1)
    | none => if isYearTok t then some 0 else none

lemma find_year_aux_eq (ts : List Str) : ∀ (i : Nat) (acc : Option Nat),
    find_year_aux i acc ts =
      (match lastYearIdx ts with
       | some k => some (i + k)
       | none => acc) := by
  induction ts with
  | nil => intro i acc; rfl
  | cons t rest ih =>
    intro i acc
    simp only [find_year_aux, ih]
    cases h : lastYearIdx rest with
    | some k =>
      simp only [lastYearIdx, h]
      have : i + 1 + k = i + (k + 1) := by omega
      rw [this]
    | none =>
      cases hy : isYearTok t <;> simp [lastYearIdx, h, hy]

lemma find_year_token_eq (ts : List Str) : find_year_token ts = lastYearIdx ts := by
  have h := find_year_aux_eq ts 0 none
  rw [find_year_token, h]
  cases lastYearIdx ts <;> simp

lemma lastYearIdx_none (ts : List Str) (h : lastYearIdx ts = none) :
    ∀ j, j < ts.length → isYearTok (ts.getD j []) = false := by
  induction ts with
  | nil => intro j hj; simp at hj
  | cons t rest ih =>
    intro j hj
    simp only [lastYearIdx] at h
    cases hr : lastYearIdx rest with
    | some k => rw [hr] at h; simp at h
    | none =>
      rw [hr] at h
      have ht : isYearTok t = false := by
        by_contra hc
        simp [eq_true_of_ne_false hc] at h
      cases j with
      | zero => simpa using ht
      | succ j' =>
        have := ih hr j' (by simpa using Nat.lt_of_succ_lt_succ hj)
        simpa using this

lemma lastYearIdx_spec (ts : List Str) (k : Nat) (h : lastYearIdx ts = some k) :
    k < ts.length ∧ isYearTok (ts.getD k []) = true ∧
      ∀ j, k < j → j < ts.length → isYearTok (ts.getD j []) = false := by
  induction ts generalizing k with
  | nil => simp [lastYearIdx] at h
  | cons t rest ih =>
    simp only [lastYearIdx] at h
    cases hr : lastYearIdx rest with
    | some k' =>
      rw [hr] at h
      obtain ⟨h1, h2, h3⟩ := ih k' hr
      have hk : k = k' + 1 := by simpa using h.symm
      subst hk
      refine ⟨by simpa using Nat.succ_lt_succ h1, by simpa using h2, ?_⟩
      intro j hj1 hj2
      cases j with
      | zero => omega
      | succ j' =>
        have := h3 j' (Nat.lt_of_succ_lt_succ hj1)
          (by simpa using Nat.lt_of_succ_lt_succ hj2)
        simpa using this
    | none =>
      rw [hr] at h
      cases hy : isYearTok t with
      | false => simp [hy] at h
      | true =>
        have hk : k = 0 := by simp [hy] at h; omega
        subst hk
        refine ⟨by simp, by simpa using hy, ?_⟩
        intro j hj1 hj2
        cases j with
        | zero => omega
        | succ j' =>
          have := lastYearIdx_none rest hr j'
            (by simpa using Nat.lt_of_succ_lt_succ hj2)
          simpa using this

/-- C4 — Year-token detection: `find_year_token` returns the index of a
token that is exactly four digits with numeric value in [1900, 2100],
and among qualifying tokens the last occurrence (largest index) is the
one chosen; it returns `none` exactly when no token qualifies. -/
theorem c4_year_token_last_occurrence (ts : List Str) :
    (∀ i, find_year_token ts = some i →
        i < ts.length ∧ isYearTok (ts.getD i []) = true ∧
          ∀ j, i < j → j < ts.length → isYearTok (ts.getD j []) = false)
      ∧ (find_year_token ts = none →
          ∀ j, j < ts.length → isYearTok (ts.getD j []) = false) := by
  constructor
  · intro i hi
    rw [find_year_token_eq] at hi
    exact lastYearIdx_spec ts i hi
  · intro h
    rw [find_year_token_eq] at h
    exact lastYearIdx_none ts h

/-! ## The rename pass: partial-failure counting -/

/-- An eligible entry whose `rename_file` call returned "renamed". -/
def isRenamedEntry (allowed skipSet : List Str) (f : FsEntry) : Bool :=
  eligibleEntry allowed skipSet f
    && (match f.result with
        | .ok st => st = ('r' :: 'e' :: 'n' :: 'a' :: 'm' :: 'e' :: 'd' :: [])
        | .error _ => false)

/-- An eligible entry whose `rename_file` call returned any other status. -/
def isSkippedEntry (allowed skipSet : List Str) (f : FsEntry) : Bool :=
  eligibleEntry allowed skipSet f
    && (match f.result with
        | .ok st => !(st = ('r' :: 'e' :: 'n' :: 'a' :: 'm' :: 'e' :: 'd' :: []))
        | .error _ => false)

/-- An eligible entry whose processing raised an exception. -/
def isErrorEntry (allowed skipSet : List Str) (f : FsEntry) : Bool :=
  eligibleEntry allowed skipSet f
    && (match f.result with
        | .ok _ => false
        | .error _ => true)

lemma rename_pass_fold (allowed skipSet : List Str) (entries : List FsEntry) :
    ∀ acc : Nat × Nat × Nat,
      entries.foldl
        (fun acc f =>
          if eligibleEntry allowed skipSet f then
            match f.result with
            | .ok st =>
              if st = ('r' :: 'e' :: 'n' :: 'a' :: 'm' :: 'e' :: 'd' :: []) then
                (acc.1 + 1, acc.2.1, acc.2.2)
              else (acc.1, acc.2.1 + 1, acc.2.2)
            | .error _ => (acc.1, acc.2.1, acc.2.2 + 1)
          else acc) acc
      = (acc.1 + entries.countP (isRenamedEntry allowed skipSet),
         acc.2.1 + entries.countP (isSkippedEntry allowed skipSet),
         acc.2.2 + entries.countP (isErrorEntry allowed skipSet)) := by
  induction entries with
  | nil => intro acc; simp
  | cons f rest ih =>
    intro acc
    simp only [List.foldl_cons, List.countP_cons]
    rw [ih]
    cases he : eligibleEntry allowed skipSet f with
    | false =>
      simp [isRenamedEntry, isSkippedEntry, isErrorEntry, he]
    | true =>
      cases hr : f.result with
      | ok st =>
        by_cases hst : st = ('r' :: 'e' :: 'n' :: 'a' :: 'm' :: 'e' :: 'd' :: [])
        · simp [isRenamedEntry, isSkippedEntry, isErrorEntry, he, hr, hst]
          omega
        · simp [isRenamedEntry, isSkippedEntry, isErrorEntry, he, hr, hst]
          omega
      | error e =>
        simp [isRenamedEntry, isSkippedEntry, isErrorEntry, he, hr]
        omega

/-- C7 — The directory-wide rename pass always completes and returns the
aggregate triple: the renamed count is the number of eligible files whose
resolution returned "renamed", the skipped count the number returning any
other status, and every file whose processing raised an exception
contributes exactly one error; the three classes partition the eligible
files, so no exception aborts the walk. -/
theorem c7_rename_pass_totals (entries : List FsEntry) (allowedExt skipDirs : List Str) :
    rename_with_lexique entries allowedExt skipDirs =
      (entries.countP (isRenamedEntry (allowedExt.map (fun e => (pyLower e).dropWhile (fun c => c = '.'))) (skipDirs.map pyLower)),
       entries.countP (isSkippedEntry (allowedExt.map (fun e => (pyLower e).dropWhile (fun c => c = '.'))) (skipDirs.map pyLower)),
       entries.countP (isErrorEntry (allowedExt.map (fun e => (pyLower e).dropWhile (fun c => c = '.'))) (skipDirs.map pyLower)))
      ∧ entries.countP (isRenamedEntry (allowedExt.map (fun e => (pyLower e).dropWhile (fun c => c = '.'))) (skipDirs.map pyLower))
          + entries.countP (isSkippedEntry (allowedExt.map (fun e => (pyLower e).dropWhile (fun c => c = '.'))) (skipDirs.map pyLower))
          + entries.countP (isErrorEntry (allowedExt.map (fun e => (pyLower e).dropWhile (fun c => c = '.'))) (skipDirs.map pyLower))
        = entries.countP (eligibleEntry (allowedExt.map (fun e => (pyLower e).dropWhile (fun c => c = '.'))) (skipDirs.map pyLower)) := by
  constructor
  · have h := rename_pass_fold
      (allowedExt.map (fun e => (pyLower e).dropWhile (fun c => c = '.')))
      (skipDirs.map pyLower) entries (0, 0, 0)
    simpa [rename_with_lexique] using h
  · set A := allowedExt.map (fun e => (pyLower e).dropWhile (fun c => c = '.'))
    set S := skipDirs.map pyLower
    induction entries with
    | nil => simp
    | cons f rest ih =>
      simp only [List.countP_cons]
      cases he : eligibleEntry A S f with
      | false =>
        simp [isRenamedEntry, isSkippedEntry, isErrorEntry, he, ih]
      | true =>
        cases hr : f.result with
        | ok st =>
          by_cases hst : st = ('r' :: 'e' :: 'n' :: 'a' :: 'm' :: 'e' :: 'd' :: [])
          · simp [isRenamedEntry, isSkippedEntry, isErrorEntry, he, hr, hst]
            omega
          · simp [isRenamedEntry, isSkippedEntry, isErrorEntry, he, hr, hst]
            omega
        | error e =>
          simp [isRenamedEntry, isSkippedEntry, isErrorEntry, he, hr]
          omega

/-! ## Token duplication in `rename_file` when the year precedes the code -/

lemma findCodeIdxAux_bound (m : List (Str × Str)) (ts : List Str) :
    ∀ i c, findCodeIdxAux m i ts = some c → i ≤ c ∧ c - i < ts.length := by
  induction ts with
  | nil => intro i c h; simp [findCodeIdxAux] at h
  | cons t rest ih =>
    intro i c h
    simp only [findCodeIdxAux] at h
    cases hm : (keysOf m).contains t with
    | true =>
      rw [hm] at h
      simp only [if_true] at h
      have : i = c := by simpa using h
      subst this
      simp [List.length_cons]
    | false =>
      rw [hm] at h
      simp only [Bool.false_eq_true, if_false] at h
      have := ih (i + 1) c h
      simp only [List.length_cons]
      omega

lemma findCodeIdx_lt (tokens : List Str) (m : List (Str × Str)) (c : Nat)
    (h : findCodeIdx tokens m = some c) : c < tokens.length := by
  have := findCodeIdxAux_bound m tokens 0 c h
  omega

lemma find_year_token_lt (tokens : List Str) (y : Nat)
    (h : find_year_token tokens = some y) :
    y < tokens.length ∧ isYearTok (tokens.getD y []) = true := by
  rw [find_year_token_eq] at h
  have := lastYearIdx_spec tokens y h
  exact ⟨this.1, this.2.1⟩

lemma getD_mem_drop (l : List Str) (i j : Nat) (hji : j ≤ i) (hi : i < l.length) :
    l.getD i [] ∈ l.drop j := by
  have hlen : i - j < (l.drop j).length := by
    simp only [List.length_drop]; omega
  have he : (l.drop j)[i - j] = l[i] := by
    rw [List.getElem_drop]
    congr 1
    omega
  have h1 : l.getD i [] = l[i] := List.getD_eq_getElem l [] hi
  rw [h1, ← he]
  exact List.getElem_mem hlen


lemma getD_mem_take (l : List Str) (i j : Nat) (hij : i < j) (hi : i < l.length) :
    l.getD i [] ∈ l.take j := by
  have hlen : i < (l.take j).length := by
    simp only [List.length_take]; omega
  have he : (l.take j)[i] = l[i] := by simp [List.getElem_take]
  have h1 : l.getD i [] = l[i] := List.getD_eq_getElem l [] hi
  rw [h1, ← he]
  exact List.getElem_mem hlen

lemma isYearTok_ne_nil (t : Str) (h : isYearTok t = true) : t ≠ [] := by
  intro hnil
  subst hnil
  simp [isYearTok] at h

/-- C8 — When the last qualifying year token sits strictly before the
first code token, `rename_file` duplicates tokens: the reconstruction
keeps the year inside the prefix and appends it again after the client
block, and the whole tail from the year on (the code token included) is
appended again, so both the code token and the year token occur at least
twice in the output token list. -/
theorem c8_year_before_code_duplicates (tokens : List Str) (m : List (Str × Str))
    (c y : Nat) (hc : findCodeIdx tokens m = some c)
    (hy : find_year_token tokens = some y) (hlt : y < c) :
    new_tokens_of tokens m =
      tokens.take c
        ++ [tokens.getD c [], lookupMap m (tokens.getD c []) (tokens.getD c [])]
        ++ [tokens.getD y []] ++ tokens.drop (y + 1)
    ∧ 2 ≤ (new_tokens_of tokens m).count (tokens.getD c [])
    ∧ 2 ≤ (new_tokens_of tokens m).count (tokens.getD y []) := by
  have hclen : c < tokens.length := findCodeIdx_lt tokens m c hc
  have hyspec := find_year_token_lt tokens y hy
  have hynil : tokens.getD y [] ≠ [] := isYearTok_ne_nil _ hyspec.2
  have heq : new_tokens_of tokens m =
      tokens.take c
        ++ [tokens.getD c [], lookupMap m (tokens.getD c []) (tokens.getD c [])]
        ++ [tokens.getD y []] ++ tokens.drop (y + 1) := by
    have hynil2 : (tokens[y]?.getD [] = []) = False := by
      simp only [eq_iff_iff, iff_false]
      simpa [List.getD] using hynil
    simp only [new_tokens_of, hc, hy]
    simp [hynil2]
  refine ⟨heq, ?_, ?_⟩
  · rw [heq]
    have hmem : tokens.getD c [] ∈ tokens.drop (y + 1) :=
      getD_mem_drop tokens c (y + 1) (by omega) hclen
    have h1 : 1 ≤ (tokens.drop (y + 1)).count (tokens.getD c []) :=
      List.count_pos_iff.mpr hmem
    simp only [List.count_append]
    have h2 : 1 ≤ ([tokens.getD c [],
        lookupMap m (tokens.getD c []) (tokens.getD c [])]).count (tokens.getD c []) := by
      simp [List.count_cons]
    omega
  · rw [heq]
    have hmem : tokens.getD y [] ∈ tokens.take c :=
      getD_mem_take tokens y c hlt hyspec.1
    have h1 : 1 ≤ (tokens.take c).count (tokens.getD y []) :=
      List.count_pos_iff.mpr hmem
    simp only [List.count_append]
    have h2 : 1 ≤ ([tokens.getD y []]).count (tokens.getD y []) := by
      simp [List.count_cons]
    omega

/-- Witness for C8: tokens of `DOC_2020_12345` with the lexicon mapping
12345 to ACME; the year (index 1) precedes the code (index 2), and both
reappear twice in the reconstruction. -/
theorem c8_year_before_code_duplicates_witness :
    new_tokens_of (["DOC", "2020", "12345"].map String.toList)
        [("12345".toList, "ACME".toList)] =
      (["DOC", "2020", "12345", "ACME", "2020", "12345"].map String.toList)
    ∧ 2 ≤ (new_tokens_of (["DOC", "2020", "12345"].map String.toList)
        [("12345".toList, "ACME".toList)]).count ("12345".toList)
    ∧ 2 ≤ (new_tokens_of (["DOC", "2020", "12345"].map String.toList)
        [("12345".toList, "ACME".toList)]).count ("2020".toList) := by
  have h := c8_year_before_code_duplicates (["DOC", "2020", "12345"].map String.toList)
    [("12345".toList, "ACME".toList)] 2 1 (by decide) (by decide) (by decide)
  refine ⟨by decide, ?_, ?_⟩
  · have := h.2.1
    simpa using this
  · have := h.2.2
    simpa using this

/-! ## C1: the spec's worked rename example -/

/-- C1 (counterexample) — Resolving `FACT_12345_2023_v1.pdf` with the
lexicon `{"12345": "ACME STORE"}` does not produce the claimed
`FACT_12345_ACME_STORE_2023.pdf`: the produced name keeps the trailing
`_v1` token after the year and inserts the canonical name verbatim with
its inner space. -/
theorem c1_resolve_example_counterexample :
    (rename_file [] ("FACT_12345_2023_v1".toList) (".pdf".toList)
        [("12345".toList, "ACME STORE".toList)]).2
      = some ("FACT_12345_ACME STORE_2023_v1.pdf".toList)
    ∧ some ("FACT_12345_ACME STORE_2023_v1.pdf".toList)
        ≠ some ("FACT_12345_ACME_STORE_2023.pdf".toList) := by
  constructor
  · rfl
  · decide

/-- C1 (amended) — Resolving `FACT_12345_2023_v1.pdf` with the lexicon
`{"12345": "ACME STORE"}` yields the action `renamed` and the new name
`FACT_12345_ACME STORE_2023_v1.pdf`: the prefix `FACT` is kept, the code
token is retained with the canonical name (space included) inserted
after it, the year is reattached after the client block, and the
trailing `_v1` token is preserved after the year. -/
theorem c1_resolve_example :
    rename_file [] ("FACT_12345_2023_v1".toList) (".pdf".toList)
        [("12345".toList, "ACME STORE".toList)]
      = ("renamed".toList, some ("FACT_12345_ACME STORE_2023_v1.pdf".toList)) := by
  rfl

/-! ## C3: the lexicon-loading invariant -/

/-- C3 (counterexample) — A lexicon row whose name cell is entirely
parenthesised, here `("1", "(x)")`, loads successfully into a mapping
whose value is the empty string: the load guards test the raw cells,
not the normalised name. -/
theorem c3_load_empty_value_counterexample :
    load_lexique [(("1".toList), ("(x)".toList))]
        = Except.ok [(("1".toList), ([] : Str))]
    ∧ ¬ (∀ kv ∈ [(("1".toList), ([] : Str))], kv.2 ≠ ([] : Str)) := by
  constructor
  · rfl
  · intro h
    exact h (("1".toList), ([] : Str)) (by simp) rfl

/-- A row both of whose raw cells pass the blank/"nan" guards. -/
def validRow (r : Str × Str) : Bool :=
  !cellBlank (pyStrip r.1) && !cellBlank (pyStrip r.2)

lemma addRow_mem (m : List (Str × Str)) (code nom : Str) (kv : Str × Str)
    (h : kv ∈ addRow m code nom) :
    kv ∈ m ∨ (validRow (code, nom) = true
      ∧ kv = (pyStrip code, cleanNom (pyStrip nom))) := by
  simp only [addRow] at h
  cases h1 : cellBlank (pyStrip code) with
  | true => rw [h1] at h; simp at h; exact Or.inl h
  | false =>
    rw [h1] at h
    simp only [Bool.false_eq_true, if_false] at h
    cases h2 : cellBlank (pyStrip nom) with
    | true => rw [h2] at h; simp at h; exact Or.inl h
    | false =>
      rw [h2] at h
      simp only [Bool.false_eq_true, if_false, List.mem_append] at h
      cases h with
      | inl hm => exact Or.inl (List.mem_of_mem_filter hm)
      | inr hm =>
        refine Or.inr ⟨by simp [validRow, h1, h2], ?_⟩
        simpa using hm

lemma lexique_fold_mem (rows : List (Str × Str)) :
    ∀ (m0 : List (Str × Str)) (kv : Str × Str),
      kv ∈ rows.foldl (fun m r => addRow m r.1 r.2) m0 →
      kv ∈ m0 ∨ ∃ r ∈ rows, validRow r = true
        ∧ kv = (pyStrip r.1, cleanNom (pyStrip r.2)) := by
  induction rows with
  | nil => intro m0 kv h; exact Or.inl h
  | cons r rest ih =>
    intro m0 kv h
    simp only [List.foldl_cons] at h
    cases ih (addRow m0 r.1 r.2) kv h with
    | inl hm =>
      cases addRow_mem m0 r.1 r.2 kv hm with
      | inl hm0 => exact Or.inl hm0
      | inr hr => exact Or.inr ⟨r, by simp, hr.1, hr.2⟩
    | inr hr =>
      obtain ⟨r', hr', hv, he⟩ := hr
      exact Or.inr ⟨r', by simp [hr'], hv, he⟩

lemma cellBlank_false_ne_nil (s : Str) (h : cellBlank s = false) : s ≠ [] := by
  intro hnil
  subst hnil
  simp [cellBlank] at h

/-- C3 (amended) — For every lexicon table that loads successfully:
every key of the returned mapping is a non-empty string, and every
entry comes from a row both of whose raw cells pass the blank/"nan"
guards (rows failing either guard are dropped silently); the key is the
stripped code cell and the value the normalised name, which may be the
empty string when normalisation erases the whole name. -/
theorem c3_load_guarded_rows (rows m : List (Str × Str))
    (h : load_lexique rows = Except.ok m) :
    ∀ kv ∈ m, kv.1 ≠ []
      ∧ ∃ r ∈ rows, cellBlank (pyStrip r.1) = false ∧ cellBlank (pyStrip r.2) = false
        ∧ kv = (pyStrip r.1, cleanNom (pyStrip r.2)) := by
  intro kv hkv
  have hm : m = rows.foldl (fun m r => addRow m r.1 r.2) [] := by
    simp only [load_lexique] at h
    by_cases hz : rows.foldl (fun m r => addRow m r.1 r.2) [] = []
    · rw [if_pos hz] at h; cases h
    · rw [if_neg hz] at h
      cases h
      rfl
  rw [hm] at hkv
  cases lexique_fold_mem rows [] kv hkv with
  | inl h0 => simp at h0
  | inr hr =>
    obtain ⟨r, hrmem, hv, he⟩ := hr
    have hv1 : cellBlank (pyStrip r.1) = false := by
      simp only [validRow, Bool.and_eq_true, Bool.not_eq_true'] at hv
      exact hv.1
    have hv2 : cellBlank (pyStrip r.2) = false := by
      simp only [validRow, Bool.and_eq_true, Bool.not_eq_true'] at hv
      exact hv.2
    refine ⟨?_, r, hrmem, hv1, hv2, he⟩
    rw [he]
    exact cellBlank_false_ne_nil _ hv1

/-- Witness for C3 (amended): a two-row table with one "nan" code row;
the surviving entry has the non-empty key `22` and originates from the
valid row. -/
theorem c3_load_guarded_rows_witness :
    ("22".toList, "ACME".toList).1 ≠ []
      ∧ ∃ r ∈ [(("nan".toList), ("X".toList)), (("22".toList), ("acme".toList))],
          cellBlank (pyStrip r.1) = false ∧ cellBlank (pyStrip r.2) = false
            ∧ ("22".toList, "ACME".toList) = (pyStrip r.1, cleanNom (pyStrip r.2)) :=
  c3_load_guarded_rows [(("nan".toList), ("X".toList)), (("22".toList), ("acme".toList))]
    [(("22".toList), ("ACME".toList))] rfl ("22".toList, "ACME".toList) (by decide)

/-! ## C6: the page validator -/

/-- `Désignation` with a decomposed accent (`e` followed by the
combining acute U+0301), as PDF text extraction can produce. -/
def decomposedDesignationNom : Str :=
  'D' :: 'e' :: '́' :: ("signation Montant HT".toList)

/-- The claim's reading of a "case/diacritic-normalized" name: upper
case it and strip the diacritics.  (This definition follows the claim's
words, for comparison with the source's literal two-spelling check.) -/
def specNormalizedNom (nm : Str) : Str := stripMarks (nfd (pyUpper (pyStrip nm)))

/-- C6 (counterexample) — A record whose name is `Désignation Montant
HT` written with a decomposed accent defeats the validator: the name's
case/diacritic-normalised form starts with `DESIGNATION`, yet the
validator keeps the name and the otherwise-complete record is treated
as complete and routed to the success branch, not to triage. -/
theorem c6_validator_counterexample :
    List.isPrefixOf ("DESIGNATION".toList)
        (specNormalizedNom decomposedDesignationNom) = true
    ∧ (validate_nom (PageInfo.mk (some ("OP1".toList)) (some ("12345".toList))
        (some decomposedDesignationNom) (some ("2023".toList)) [])).nom
      = some decomposedDesignationNom
    ∧ isComplete (validate_nom (PageInfo.mk (some ("OP1".toList)) (some ("12345".toList))
        (some decomposedDesignationNom) (some ("2023".toList)) [])) = true := by
  refine ⟨by decide, by decide, by decide⟩

/-- The validator's actual rejection test on an optional name. -/
def rejectNom : Option Str → Bool
  | none => false
  | some nm =>
    nm ≠ [] && (List.isPrefixOf ("DÉSIGNATION".toList) (pyUpper (pyStrip nm))
      || List.isPrefixOf ("DESIGNATION".toList) (pyUpper (pyStrip nm)))

/-- C6 (amended) — The validator nulls out exactly those non-empty
names whose stripped upper-case form starts with the literal
`DÉSIGNATION` (precomposed) or `DESIGNATION`; the other fields are
untouched; a record is complete iff all four fields are present and
non-empty after this rejection; and the spec's example name
`DESIGNATION MONTANT HT` is indeed invalidated, making the record
incomplete. -/
theorem c6_validator_rejection (info : PageInfo) :
    ((validate_nom info).nom = none ↔ info.nom = none ∨ rejectNom info.nom = true)
    ∧ (validate_nom info).op = info.op
    ∧ (validate_nom info).code = info.code
    ∧ (validate_nom info).an = info.an
    ∧ (isComplete (validate_nom info) = true ↔
        truthy info.op = true ∧ truthy info.code = true
          ∧ truthy (validate_nom info).nom = true ∧ truthy info.an = true)
    ∧ (info.nom = some ("DESIGNATION MONTANT HT".toList) →
        (validate_nom info).nom = none ∧ isComplete (validate_nom info) = false) := by
  have hfields : (validate_nom info).op = info.op ∧ (validate_nom info).code = info.code
      ∧ (validate_nom info).an = info.an := by
    cases hn : info.nom with
    | none => simp [validate_nom, hn]
    | some nm =>
      simp only [validate_nom, hn]
      split
      · simp
      · split <;> simp
  refine ⟨?_, hfields.1, hfields.2.1, hfields.2.2, ?_, ?_⟩
  · cases hn : info.nom with
    | none => simp [validate_nom, hn, rejectNom]
    | some nm =>
      simp only [validate_nom, hn]
      split
      next hz => simp [hn, rejectNom, hz]
      next hz =>
        split
        next hp =>
          simp only [rejectNom]
          simp [hn, hz, List.isPrefixOf_iff_prefix]
          simpa using hp
        next hp =>
          simp only [rejectNom]
          simp [hn, hz, List.isPrefixOf_iff_prefix]
          simpa using hp
  · simp only [isComplete, Bool.and_eq_true]
    rw [hfields.1, hfields.2.1, hfields.2.2]
    tauto
  · intro hn
    have hrej : (validate_nom info).nom = none := by
      simp only [validate_nom, hn]
      split
      next hz => cases hz
      next hz =>
        split
        next hp => rfl
        next hp =>
          exact absurd (by decide) hp
    refine ⟨hrej, ?_⟩
    simp [isComplete, hrej, truthy]

/-! ## Idempotence of the text normaliser (C5) -/

/-- No two adjacent characters of the list both satisfy `p`. -/
def NoAdjacent (p : Char → Bool) (l : Str) : Prop :=
  List.Chain' (fun a b => ¬(p a = true ∧ p b = true)) l

lemma collapseRunAux_mem (p : Char → Bool) (rep : Char) :
    ∀ (s : Str) (b : Bool) (c : Char), c ∈ collapseRunAux p rep b s → c = rep ∨ c ∈ s := by
  intro s
  induction s with
  | nil => intro b c h; simp [collapseRunAux] at h
  | cons a rest ih =>
    intro b c h
    simp only [collapseRunAux] at h
    cases hp : p a with
    | true =>
      rw [hp] at h
      simp only [if_true] at h
      cases b with
      | true =>
        simp only [if_true] at h
        rcases ih true c h with h1 | h1
        · exact Or.inl h1
        · exact Or.inr (List.mem_cons_of_mem a h1)
      | false =>
        simp only [Bool.false_eq_true, if_false] at h
        rcases List.mem_cons.mp h with h1 | h1
        · exact Or.inl h1
        · rcases ih true c h1 with h2 | h2
          · exact Or.inl h2
          · exact Or.inr (List.mem_cons_of_mem a h2)
    | false =>
      rw [hp] at h
      simp only [Bool.false_eq_true, if_false] at h
      rcases List.mem_cons.mp h with h1 | h1
      · exact Or.inr (h1 ▸ List.mem_cons_self a rest)
      · rcases ih false c h1 with h2 | h2
        · exact Or.inl h2
        · exact Or.inr (List.mem_cons_of_mem a h2)

lemma collapseRunAux_sat_eq_rep (p : Char → Bool) (rep : Char) :
    ∀ (s : Str) (b : Bool) (c : Char), c ∈ collapseRunAux p rep b s → p c = true → c = rep := by
  intro s
  induction s with
  | nil => intro b c h; simp [collapseRunAux] at h
  | cons a rest ih =>
    intro b c h hc
    simp only [collapseRunAux] at h
    cases hp : p a with
    | true =>
      rw [hp] at h
      simp only [if_true] at h
      cases b with
      | true =>
        simp only [if_true] at h
        exact ih true c h hc
      | false =>
        simp only [Bool.false_eq_true, if_false] at h
        rcases List.mem_cons.mp h with h1 | h1
        · exact h1
        · exact ih true c h1 hc
    | false =>
      rw [hp] at h
      simp only [Bool.false_eq_true, if_false] at h
      rcases List.mem_cons.mp h with h1 | h1
      · subst h1; rw [hp] at hc; cases hc
      · exact ih false c h1 hc

lemma collapseRunAux_chain (p : Char → Bool) (rep : Char) :
    ∀ (s : Str) (b : Bool),
      NoAdjacent p (collapseRunAux p rep b s)
        ∧ (b = true → ∀ h ∈ (collapseRunAux p rep b s).head?, p h = false) := by
  intro s
  induction s with
  | nil =>
    intro b
    constructor
    · simp [collapseRunAux, NoAdjacent]
    · intro _ h hh; simp [collapseRunAux] at hh
  | cons a rest ih =>
    intro b
    simp only [collapseRunAux]
    cases hp : p a with
    | true =>
      simp only [if_true]
      cases b with
      | true =>
        simp only [if_true]
        exact ⟨(ih true).1, fun _ => (ih true).2 rfl⟩
      | false =>
        simp only [Bool.false_eq_true, if_false]
        constructor
        · rw [NoAdjacent, List.chain'_cons']
          refine ⟨?_, (ih true).1⟩
          intro h hh
          have := (ih true).2 rfl h hh
          intro hcontra
          rw [this] at hcontra
          exact absurd hcontra.2 (by simp)
        · intro hb; cases hb
    | false =>
      simp only [Bool.false_eq_true, if_false]
      constructor
      · rw [NoAdjacent, List.chain'_cons']
        refine ⟨?_, (ih false).1⟩
        intro h hh
        intro hcontra
        rw [hp] at hcontra
        exact absurd hcontra.1 (by simp)
      · intro _ h hh
        simp only [List.head?_cons, Option.mem_def, Option.some.injEq] at hh
        subst hh
        exact hp

lemma collapseRunAux_true_of_head (p : Char → Bool) (rep : Char) (t : Str)
    (h : ∀ c ∈ t.head?, p c = false) :
    collapseRunAux p rep true t = collapseRunAux p rep false t := by
  cases t with
  | nil => rfl
  | cons c rest =>
    have hc : p c = false := h c (by simp)
    simp [collapseRunAux, hc]

lemma collapseRunAux_id (p : Char → Bool) (rep : Char) :
    ∀ (t : Str), NoAdjacent p t → (∀ c ∈ t, p c = true → c = rep) →
      collapseRunAux p rep false t = t := by
  intro t
  induction t with
  | nil => intro _ _; rfl
  | cons c rest ih =>
    intro hchain hrep
    have hrest_chain : NoAdjacent p rest := (List.chain'_cons'.mp hchain).2
    have hrest_rep : ∀ d ∈ rest, p d = true → d = rep :=
      fun d hd => hrep d (List.mem_cons_of_mem c hd)
    simp only [collapseRunAux]
    cases hp : p c with
    | true =>
      simp only [if_true]
      have hceq : c = rep := hrep c (List.mem_cons_self c rest) hp
      have hhead : ∀ d ∈ rest.head?, p d = false := by
        intro d hd
        have hR := (List.chain'_cons'.mp hchain).1 d hd
        cases hq : p d with
        | true => exact absurd ⟨hp, hq⟩ hR
        | false => rfl
      rw [collapseRunAux_true_of_head p rep rest hhead, ih hrest_chain hrest_rep, hceq]
      simp
    | false =>
      simp only [Bool.false_eq_true, if_false]
      rw [ih hrest_chain hrest_rep]

/-- `pyStrip` through the Mathlib `dropWhile`/`rdropWhile` API. -/
lemma pyStrip_eq (s : Str) :
    pyStrip s = (s.dropWhile pyIsSpace).rdropWhile pyIsSpace := rfl

lemma pyStrip_infix_self (s : Str) : pyStrip s <:+: s := by
  rw [pyStrip_eq]
  exact (List.rdropWhile_prefix _ _).isInfix.trans (List.dropWhile_suffix _).isInfix

lemma pyStrip_idempotent (s : Str) : pyStrip (pyStrip s) = pyStrip s := by
  rw [pyStrip_eq (pyStrip s)]
  have h1 : (pyStrip s).dropWhile pyIsSpace = pyStrip s := by
    rw [List.dropWhile_eq_self_iff]
    intro hl
    have hpre := List.rdropWhile_prefix pyIsSpace (s.dropWhile pyIsSpace)
    obtain ⟨t, ht⟩ := hpre
    have hlen : 0 < (s.dropWhile pyIsSpace).length := by
      rw [← ht]
      simp only [List.length_append]
      have := hl
      rw [pyStrip_eq] at this
      omega
    have hpre2 : pyStrip s <+: s.dropWhile pyIsSpace := ⟨t, ht⟩
    have hget : (pyStrip s).get ⟨0, hl⟩ = (s.dropWhile pyIsSpace).get ⟨0, hlen⟩ := by
      simp only [List.get_eq_getElem]
      exact List.IsPrefix.getElem hpre2 hl
    rw [hget]
    exact List.dropWhile_get_zero_not pyIsSpace s hlen
  rw [h1, pyStrip_eq s, List.rdropWhile_idempotent]

lemma pyStrip_mem (s : Str) (c : Char) (h : c ∈ pyStrip s) : c ∈ s :=
  (pyStrip_infix_self s).subset h

/-- Table facts: a decomposition is either trivial or produces an atomic
non-combining base followed by a combining mark. -/
lemma decompChar_cases (c : Char) :
    decompChar c = [c]
      ∨ ∃ b m, decompChar c = [b, m] ∧ decompChar b = [b]
          ∧ isCombining b = false ∧ isCombining m = true := by
  have htab : ∀ q ∈ accentTable, decompChar q.2.1 = [q.2.1]
      ∧ isCombining q.2.1 = false ∧ isCombining q.2.2 = true := by decide
  rw [decompChar]
  cases hf : accentTable.find? (fun p => p.1 = c) with
  | none => exact Or.inl rfl
  | some q =>
    have hq := htab q (List.mem_of_find?_eq_some hf)
    exact Or.inr ⟨q.2.1, q.2.2, rfl, hq.1, hq.2.1, hq.2.2⟩

lemma stripMarks_nfd_mem (s : Str) (c : Char) (h : c ∈ stripMarks (nfd s)) :
    decompChar c = [c] ∧ isCombining c = false := by
  simp only [stripMarks, List.mem_filter, Bool.not_eq_true'] at h
  obtain ⟨hmem, hnc⟩ := h
  simp only [nfd, List.mem_flatMap] at hmem
  obtain ⟨a, _, hca⟩ := hmem
  rcases decompChar_cases a with hat | ⟨b, m, hd, hb, hbn, hm⟩
  · rw [hat] at hca
    simp only [List.mem_singleton] at hca
    subst hca
    exact ⟨hat, hnc⟩
  · rw [hd] at hca
    simp only [List.mem_cons, List.mem_singleton, List.not_mem_nil, or_false] at hca
    rcases hca with hca | hca
    · subst hca; exact ⟨hb, hbn⟩
    · subst hca; rw [hm] at hnc; cases hnc

lemma replaceNonWord_mem (w : Str) (c : Char) (h : c ∈ replaceNonWord w) :
    c = ' ' ∨ (c ∈ w ∧ keepChar c = true) := by
  simp only [replaceNonWord, List.mem_map] at h
  obtain ⟨a, ha, hfa⟩ := h
  by_cases hk : keepChar a = true
  · rw [if_pos hk] at hfa
    subst hfa
    exact Or.inr ⟨ha, hk⟩
  · rw [if_neg hk] at hfa
    exact Or.inl hfa.symm

lemma nfd_id (s : Str) (h : ∀ c ∈ s, decompChar c = [c]) : nfd s = s := by
  induction s with
  | nil => rfl
  | cons c rest ih =>
    simp only [nfd, List.flatMap_cons] at *
    rw [h c (List.mem_cons_self c rest), ih (fun d hd => h d (List.mem_cons_of_mem c hd))]
    rfl

lemma stripMarks_id (s : Str) (h : ∀ c ∈ s, isCombining c = false) : stripMarks s = s := by
  rw [stripMarks, List.filter_eq_self]
  intro a ha
  simp [h a ha]

lemma replaceNonWord_id (s : Str) (h : ∀ c ∈ s, keepChar c = true) :
    replaceNonWord s = s := by
  simp only [replaceNonWord]
  conv_rhs => rw [← List.map_id s]
  apply List.map_congr_left
  intro a ha
  simp [h a ha]

lemma parenMatchAt_none (s : Str) (h : '(' ∉ s) : parenMatchAt s = none := by
  rw [parenMatchAt]
  cases hd : s.dropWhile pyIsSpace with
  | nil => rfl
  | cons c tail =>
    have hc : c ∈ s := by
      have hm : c ∈ s.dropWhile pyIsSpace := by
        rw [hd]; exact List.mem_cons_self _ _
      exact (List.dropWhile_suffix pyIsSpace).subset hm
    have hne : c ≠ '(' := fun he => h (he ▸ hc)
    split
    next heq =>
      exfalso
      exact hne (List.cons.inj heq).1
    next => rfl

lemma removeParensFuel_id (f : Nat) :
    ∀ s : Str, '(' ∉ s → removeParensFuel f s = s := by
  induction f with
  | zero => intro s _; rfl
  | succ f ih =>
    intro s h
    cases s with
    | nil => rfl
    | cons c rest =>
      have hnone := parenMatchAt_none (c :: rest) h
      simp only [removeParensFuel, hnone]
      rw [ih rest (fun hc => h (List.mem_cons_of_mem c hc))]

lemma removeParens_id (s : Str) (h : '(' ∉ s) : removeParens s = s :=
  removeParensFuel_id s.length s h

/-- Character-level facts about every character of a normalised string. -/
lemma normalize_mem (s : Str) (c : Char) (h : c ∈ normalize_text s) :
    keepChar c = true ∧ decompChar c = [c] ∧ isCombining c = false
      ∧ (pyIsSpace c = true → c = ' ') := by
  have h1 : c ∈ collapseWs (replaceNonWord (stripMarks (nfd (removeParens s)))) :=
    pyStrip_mem _ c h
  have hsp : pyIsSpace c = true → c = ' ' :=
    collapseRunAux_sat_eq_rep pyIsSpace ' ' _ false c h1
  rcases collapseRunAux_mem pyIsSpace ' ' _ false c h1 with rfl | h2
  · exact ⟨by decide, by decide, by decide, fun _ => rfl⟩
  · rcases replaceNonWord_mem _ c h2 with rfl | ⟨h3, hk⟩
    · exact ⟨by decide, by decide, by decide, fun _ => rfl⟩
    · have h4 := stripMarks_nfd_mem _ c h3
      exact ⟨hk, h4.1, h4.2, hsp⟩

/-- C5 — The text normaliser is idempotent: normalising an already
normalised string returns it unchanged.  (As a Lean function the
embedding is also pure and total on every string, matching the
source's coercion of any input to a string.) -/
theorem c5_normalize_text_idempotent (s : Str) :
    normalize_text (normalize_text s) = normalize_text s := by
  have hmem := fun c hc => normalize_mem s c hc
  have hnoadj : NoAdjacent pyIsSpace (normalize_text s) := by
    have hchain := (collapseRunAux_chain pyIsSpace ' '
      (replaceNonWord (stripMarks (nfd (removeParens s)))) false).1
    exact List.Chain'.infix hchain (pyStrip_infix_self _)
  have h1 : removeParens (normalize_text s) = normalize_text s := by
    apply removeParens_id
    intro hc
    have := (hmem '(' hc).1
    exact absurd this (by decide)
  have h2 : nfd (normalize_text s) = normalize_text s :=
    nfd_id _ (fun c hc => (hmem c hc).2.1)
  have h3 : stripMarks (normalize_text s) = normalize_text s :=
    stripMarks_id _ (fun c hc => (hmem c hc).2.2.1)
  have h4 : replaceNonWord (normalize_text s) = normalize_text s :=
    replaceNonWord_id _ (fun c hc => (hmem c hc).1)
  have h5 : collapseWs (normalize_text s) = normalize_text s :=
    collapseRunAux_id pyIsSpace ' ' _ hnoadj (fun c hc => (hmem c hc).2.2.2)
  conv_lhs => rw [normalize_text, h1, h2, h3, h4, h5]
  exact pyStrip_idempotent _

/-- Witness-style instantiation for C5 at a concrete accented input. -/
theorem c5_normalize_text_idempotent_witness :
    normalize_text (normalize_text ("Société Générale (Paris)!".toList))
      = normalize_text ("Société Générale (Paris)!".toList) :=
  c5_normalize_text_idempotent ("Société Générale (Paris)!".toList)

/-! ## Length bounds and the no-code rename (C9) -/

lemma parenMatchAt_length (s t : Str) (h : parenMatchAt s = some t) :
    t.length + 2 ≤ s.length := by
  rw [parenMatchAt] at h
  have hd : (s.dropWhile pyIsSpace).length ≤ s.length :=
    (List.dropWhile_suffix pyIsSpace).sublist.length_le
  split at h
  next c tail heq =>
    split at h
    next after heq2 =>
      have ht : t = after := by exact (Option.some.inj h).symm
      subst ht
      have h1 : (tail.dropWhile (fun c => c ≠ ')')).length ≤ tail.length :=
        (List.dropWhile_suffix _).sublist.length_le
      rw [heq2] at h1
      rw [heq] at hd
      simp only [List.length_cons] at h1 hd
      omega
    next => cases h
  next => cases h

lemma removeParensFuel_length_le (f : Nat) :
    ∀ s : Str, (removeParensFuel f s).length ≤ s.length := by
  induction f with
  | zero => intro s; exact le_refl _
  | succ f ih =>
    intro s
    cases s with
    | nil => simp [removeParensFuel]
    | cons c rest =>
      cases hp : parenMatchAt (c :: rest) with
      | some after =>
        simp only [removeParensFuel, hp]
        have h1 := parenMatchAt_length _ _ hp
        have h2 := ih after
        simp only [List.length_cons] at h1 ⊢
        omega
      | none =>
        simp only [removeParensFuel, hp, List.length_cons]
        have := ih rest
        omega

lemma nfd_cons (c : Char) (rest : Str) :
    nfd (c :: rest) = decompChar c ++ nfd rest := by
  simp [nfd]

lemma stripMarks_nfd_length_le (s : Str) :
    (stripMarks (nfd s)).length ≤ s.length := by
  induction s with
  | nil => simp [nfd, stripMarks]
  | cons c rest ih =>
    have hc : (stripMarks (decompChar c)).length ≤ 1 := by
      rcases decompChar_cases c with h | ⟨b, m, hd, _, hbn, hm⟩
      · rw [h]
        simp only [stripMarks]
        cases hcc : isCombining c <;> simp [hcc]
      · rw [hd]
        simp [stripMarks, hbn, hm]
    rw [nfd_cons]
    simp only [stripMarks, List.filter_append] at hc ⊢
    simp only [List.length_append, List.length_cons]
    have := ih
    simp only [stripMarks] at this
    omega

lemma collapseRunAux_length_le (p : Char → Bool) (rep : Char) :
    ∀ (s : Str) (b : Bool), (collapseRunAux p rep b s).length ≤ s.length := by
  intro s
  induction s with
  | nil => intro b; simp [collapseRunAux]
  | cons c rest ih =>
    intro b
    simp only [collapseRunAux]
    cases hp : p c with
    | true =>
      simp only [if_true]
      cases b with
      | true =>
        have := ih true
        simp only [if_true, List.length_cons]
        omega
      | false =>
        have := ih true
        simp only [Bool.false_eq_true, if_false, List.length_cons]
        omega
    | false =>
      have := ih false
      simp only [Bool.false_eq_true, if_false, List.length_cons]
      omega

lemma normalize_text_length_le (s : Str) :
    (normalize_text s).length ≤ s.length := by
  rw [normalize_text]
  have h1 : (removeParens s).length ≤ s.length := removeParensFuel_length_le _ s
  have h2 := stripMarks_nfd_length_le (removeParens s)
  have h3 : (replaceNonWord (stripMarks (nfd (removeParens s)))).length
      = (stripMarks (nfd (removeParens s))).length := by
    simp [replaceNonWord]
  have h4 := collapseRunAux_length_le pyIsSpace ' '
    (replaceNonWord (stripMarks (nfd (removeParens s)))) false
  have h5 : (pyStrip (collapseWs (replaceNonWord (stripMarks (nfd (removeParens s)))))).length
      ≤ (collapseWs (replaceNonWord (stripMarks (nfd (removeParens s))))).length :=
    (pyStrip_infix_self _).sublist.length_le
  simp only [collapseWs, collapseRun] at h4 h5 ⊢
  omega

lemma collapseRunAux_sublist (p : Char → Bool) (rep : Char)
    (hrep : ∀ c, p c = true → c = rep) :
    ∀ (s : Str) (b : Bool), (collapseRunAux p rep b s).Sublist s := by
  intro s
  induction s with
  | nil => intro b; simp [collapseRunAux]
  | cons c rest ih =>
    intro b
    simp only [collapseRunAux]
    cases hp : p c with
    | true =>
      simp only [if_true]
      cases b with
      | true => exact (ih true).cons c
      | false =>
        simp only [Bool.false_eq_true, if_false]
        have hcr : c = rep := hrep c hp
        subst hcr
        exact (ih true).cons₂ c
    | false =>
      simp only [Bool.false_eq_true, if_false]
      exact (ih false).cons₂ c

lemma pyStripChar_sublist (ch : Char) (s : Str) : (pyStripChar ch s).Sublist s := by
  have heq : pyStripChar ch s
      = (s.dropWhile (fun c => c = ch)).rdropWhile (fun c => c = ch) := rfl
  rw [heq]
  exact ((List.rdropWhile_prefix _ _).isInfix.trans
    (List.dropWhile_suffix _).isInfix).sublist

lemma joinUnderscore_cons (a : Str) (T : List Str) (hT : T ≠ []) :
    joinUnderscore (a :: T) = a ++ '_' :: joinUnderscore T := by
  cases T with
  | nil => cases hT rfl
  | cons t ts => rfl

lemma joinUnderscore_splitAux_sublist (p : Char → Bool)
    (hrep : ∀ c, p c = true → c = '_') :
    ∀ (s cur : Str),
      (joinUnderscore (splitOnPAux p cur s)).Sublist (cur.reverse ++ s) := by
  intro s
  induction s with
  | nil =>
    intro cur
    simp only [splitOnPAux]
    by_cases hc : cur = []
    · simp [hc, joinUnderscore]
    · simp only [hc, if_false]
      simp [joinUnderscore]
  | cons c rest ih =>
    intro cur
    simp only [splitOnPAux]
    cases hp : p c with
    | true =>
      have hcu : c = '_' := hrep c hp
      subst hcu
      simp only [if_true]
      by_cases hcur : cur = []
      · simp only [hcur, if_true]
        have h0 := ih []
        simp only [List.reverse_nil, List.nil_append] at h0 ⊢
        exact (h0 ).cons '_'
      · simp only [hcur, if_false]
        cases hT : splitOnPAux p [] rest with
        | nil =>
          simp only [hT, joinUnderscore]
          exact List.sublist_append_left _ _
        | cons t ts =>
          rw [joinUnderscore_cons _ _ (by simp)]
          apply List.Sublist.append_left
          apply List.Sublist.cons₂
          have h0 := ih []
          rw [hT] at h0
          simpa using h0
    | false =>
      simp only [Bool.false_eq_true, if_false]
      have h0 := ih (c :: cur)
      simpa [List.append_assoc] using h0

lemma joinBase_splitTokens_sublist (s : Str) :
    (joinBase (splitTokens s)).Sublist s := by
  rw [joinBase]
  refine ((pyStripChar_sublist _ _).trans ?_)
  refine (collapseRunAux_sublist _ _ (fun c hc => by simpa using hc) _ false).trans ?_
  have h0 := joinUnderscore_splitAux_sublist (fun c => c = '_')
    (fun c hc => by simpa using hc) s []
  simpa [splitTokens, splitOnP] using h0

lemma findCodeIdxAux_none (m : List (Str × Str)) :
    ∀ (ts : List Str) (i : Nat), (∀ t ∈ ts, t ∉ keysOf m) →
      findCodeIdxAux m i ts = none := by
  intro ts
  induction ts with
  | nil => intro i _; rfl
  | cons t rest ih =>
    intro i h
    simp only [findCodeIdxAux]
    have ht : ¬ (keysOf m).contains t = true := by
      intro hc
      exact h t (List.mem_cons_self t rest) (by simpa using hc)
    rw [Bool.not_eq_true] at ht
    rw [ht]
    simp only [Bool.false_eq_true, if_false]
    exact ih (i + 1) (fun d hd => h d (List.mem_cons_of_mem t hd))

/-- C9 (counterexample) — The file `(x).pdf` has a normalised base (the
empty string) different from its base, and no lexicon code can match,
yet `rename_file` returns `skipped` because tokenisation leaves no
tokens: normalisation changing the base does not imply `renamed`. -/
theorem c9_skip_counterexample :
    normalize_text ("(x)".toList) ≠ ("(x)".toList)
    ∧ (∀ t ∈ splitTokens (normalize_text ("(x)".toList)), t ∉ keysOf [])
    ∧ rename_file [] ("(x)".toList) (".pdf".toList) [] = ("skipped".toList, none) := by
  refine ⟨by decide, by decide, by rfl⟩

/-- C9 (amended) — When the normalised base still has at least one token
and none of its tokens is a lexicon key, the reconstruction is the
identity on the tokens and the proposed name is the normalised base
joined with single underscores (collapsed and trimmed) plus the original
extension; whenever normalisation changed the base name the file is
`renamed` to that proposed name (collision-free directory), not skipped.
When tokenisation leaves no token, the file is skipped instead. -/
theorem c9_no_code_rename (base ext : Str) (m : List (Str × Str))
    (htok : splitTokens (normalize_text base) ≠ [])
    (hkey : ∀ t ∈ splitTokens (normalize_text base), t ∉ keysOf m) :
    new_tokens_of (splitTokens (normalize_text base)) m
        = splitTokens (normalize_text base)
    ∧ proposedName base ext m
        = joinBase (splitTokens (normalize_text base)) ++ ext
    ∧ (normalize_text base ≠ base →
        rename_file [] base ext m
          = (("renamed".toList), some (proposedName base ext m))) := by
  have hidx : findCodeIdx (splitTokens (normalize_text base)) m = none :=
    findCodeIdxAux_none m _ 0 hkey
  have hnt : new_tokens_of (splitTokens (normalize_text base)) m
      = splitTokens (normalize_text base) := by
    rw [new_tokens_of, hidx]
  have hpn : proposedName base ext m
      = joinBase (splitTokens (normalize_text base)) ++ ext := by
    rw [proposedName, hnt]
  refine ⟨hnt, hpn, ?_⟩
  intro hchanged
  have hne : joinBase (splitTokens (normalize_text base)) ++ ext ≠ base ++ ext := by
    intro heq
    have hjb : joinBase (splitTokens (normalize_text base)) = base := by
      have hlen : (joinBase (splitTokens (normalize_text base))).length = base.length := by
        have := congrArg List.length heq
        simp only [List.length_append] at this
        omega
      exact (List.append_inj heq hlen).1
    have hsub : (joinBase (splitTokens (normalize_text base))).Sublist
        (normalize_text base) := joinBase_splitTokens_sublist _
    have hlen1 : (normalize_text base).length ≤ base.length := normalize_text_length_le base
    have hlen2 : (joinBase (splitTokens (normalize_text base))).length
        ≤ (normalize_text base).length := hsub.length_le
    have hlen3 : (joinBase (splitTokens (normalize_text base))).length = base.length := by
      rw [hjb]
    have heqn : joinBase (splitTokens (normalize_text base)) = normalize_text base :=
      hsub.eq_of_length (by omega)
    exact hchanged (heqn ▸ hjb)
  simp only [rename_file, hnt]
  rw [if_neg htok, if_neg hne]
  have hcont : (([] : List Str).contains
      (joinBase (splitTokens (normalize_text base)) ++ ext)) = false := by simp
  rw [hpn]
  simp [hcont]

/-- Witness for C9 (amended): `RAPPORT (ancien).pdf` with an empty
lexicon is renamed to `RAPPORT.pdf`. -/
theorem c9_no_code_rename_witness :
    new_tokens_of (splitTokens (normalize_text ("RAPPORT (ancien)".toList))) []
        = splitTokens (normalize_text ("RAPPORT (ancien)".toList))
    ∧ proposedName ("RAPPORT (ancien)".toList) (".pdf".toList) []
        = joinBase (splitTokens (normalize_text ("RAPPORT (ancien)".toList))) ++ (".pdf".toList)
    ∧ (normalize_text ("RAPPORT (ancien)".toList) ≠ ("RAPPORT (ancien)".toList) →
        rename_file [] ("RAPPORT (ancien)".toList) (".pdf".toList) []
          = (("renamed".toList), some (proposedName ("RAPPORT (ancien)".toList) (".pdf".toList) []))) :=
  c9_no_code_rename ("RAPPORT (ancien)".toList) (".pdf".toList) []
    (by decide) (by decide)

/-! ## C2: where an extracted client code sits in the page text -/

/-- The character before position `i` (if any) is not a digit. -/
def noDigitLast (s : Str) : Bool :=
  match s.getLast? with
  | some c => !c.isDigit
  | none => true

/-- The character at the start of `s` (if any) is not a digit. -/
def noDigitHead (s : Str) : Bool :=
  match s.head? with
  | some c => !c.isDigit
  | none => true

/-- The claim's property: the code occurs somewhere in the text neither
immediately preceded nor immediately followed by another digit. -/
def MaximalRun (code txt : Str) : Prop :=
  ∃ i, i < txt.length
    ∧ ((txt.drop i).take code.length = code
        ∧ noDigitLast (txt.take i) = true
        ∧ noDigitHead (txt.drop (i + code.length)) = true)

instance (code txt : Str) : Decidable (MaximalRun code txt) := by
  apply decidable_of_iff ((List.range txt.length).any (fun i =>
    decide ((txt.drop i).take code.length = code)
      && noDigitLast (txt.take i)
      && noDigitHead (txt.drop (i + code.length))))
  simp [MaximalRun, List.any_eq_true, List.mem_range, and_assoc]

lemma pyIsSpace_not_digit (c : Char) (h : pyIsSpace c = true) : c.isDigit = false := by
  simp only [pyIsSpace, Bool.or_eq_true, decide_eq_true_eq] at h
  rcases h with ((((h | h) | h) | h) | h) | h <;> subst h <;> decide

lemma digit_wordChar (c : Char) (h : c.isDigit = true) : wordChar c = true := by
  simp [wordChar, Char.isAlphanum, h]

lemma afterSlash_spec (s code : Str) (h : afterSlash s = some code) :
    ∃ ws post, s = ws ++ code ++ post ∧ (∀ c ∈ ws, pyIsSpace c = true)
      ∧ code.length = 5 ∧ code.all Char.isDigit = true := by
  rw [afterSlash] at h
  split at h
  next a b c d e post heq =>
    split at h
    next hdig =>
      have hcode : code = (a :: b :: c :: d :: e :: []) := (Option.some.inj h).symm
      subst hcode
      refine ⟨s.takeWhile pyIsSpace, post, ?_, ?_, rfl, hdig⟩
      · conv_lhs => rw [← List.takeWhile_append_dropWhile pyIsSpace s]
        rw [heq]
        simp
      · intro x hx
        exact List.mem_takeWhile_imp hx
    next => cases h
  next => cases h

lemma getLast?_nonspace_slash (ws2 : Str) (hws : ∀ c ∈ ws2, pyIsSpace c = true) :
    noDigitLast (('/' : Char) :: ws2) = true := by
  rw [noDigitLast]
  cases hlast : (('/' : Char) :: ws2).getLast? with
  | none => rfl
  | some c =>
    have hmem : c ∈ ('/' : Char) :: ws2 := by
      obtain ⟨hne, hc⟩ := List.mem_getLast?_eq_getLast hlast
      rw [hc]
      exact List.getLast_mem hne
    rcases List.mem_cons.mp hmem with rfl | hmem2
    · decide
    · simp [pyIsSpace_not_digit c (hws c hmem2)]

lemma afterColon_spec (s code : Str) (h : afterColon s = some code) :
    ∃ pre post, s = pre ++ code ++ post ∧ pre ≠ [] ∧ noDigitLast pre = true
      ∧ code.length = 5 ∧ code.all Char.isDigit = true := by
  rw [afterColon] at h
  split at h
  next rest heq =>
    obtain ⟨ws2, post, hrest, hws, hlen, hdig⟩ := afterSlash_spec rest code h
    refine ⟨s.takeWhile pyIsSpace ++ ('/' :: ws2), post, ?_, by simp, ?_, hlen, hdig⟩
    · conv_lhs => rw [← List.takeWhile_append_dropWhile pyIsSpace s]
      rw [heq, hrest]
      simp
    · rw [noDigitLast]
      rw [List.getLast?_append_of_ne_nil _ (by simp)]
      have := getLast?_nonspace_slash ws2 hws
      rw [noDigitLast] at this
      exact this
  next => cases h

lemma noDigitLast_cons (c : Char) (pre : Str) (hne : pre ≠ []) :
    noDigitLast (c :: pre) = noDigitLast pre := by
  cases pre with
  | nil => cases hne rfl
  | cons d t =>
    rw [noDigitLast, noDigitLast, List.getLast?_cons_cons]

lemma findColon_spec (s : Str) :
    ∀ code, findColon s = some code →
      ∃ pre post, s = pre ++ code ++ post ∧ pre ≠ [] ∧ noDigitLast pre = true
        ∧ code.length = 5 ∧ code.all Char.isDigit = true := by
  induction s with
  | nil => intro code h; cases h
  | cons c rest ih =>
    intro code h
    rw [findColon] at h
    by_cases hnl : c = '\n'
    · rw [if_pos hnl] at h; cases h
    · rw [if_neg hnl] at h
      by_cases hcol : c = ':'
      · rw [if_pos hcol] at h
        cases hac : afterColon rest with
        | some code2 =>
          rw [hac] at h
          have hcode : code = code2 := Option.some.inj h.symm
          subst hcode
          obtain ⟨pre, post, hrest, hpre, hlast, hlen, hdig⟩ := afterColon_spec rest code hac
          exact ⟨c :: pre, post, by rw [hrest]; rfl, by simp,
            by rw [noDigitLast_cons c pre hpre]; exact hlast, hlen, hdig⟩
        | none =>
          rw [hac] at h
          obtain ⟨pre, post, hrest, hpre, hlast, hlen, hdig⟩ := ih code h
          exact ⟨c :: pre, post, by rw [hrest]; rfl, by simp,
            by rw [noDigitLast_cons c pre hpre]; exact hlast, hlen, hdig⟩
      · rw [if_neg hcol] at h
        obtain ⟨pre, post, hrest, hpre, hlast, hlen, hdig⟩ := ih code h
        exact ⟨c :: pre, post, by rw [hrest]; rfl, by simp,
          by rw [noDigitLast_cons c pre hpre]; exact hlast, hlen, hdig⟩

lemma codifHere_spec (s code : Str) (h : codifHere s = some code) :
    ∃ pre post, s = pre ++ code ++ post ∧ pre ≠ [] ∧ noDigitLast pre = true
      ∧ code.length = 5 ∧ code.all Char.isDigit = true := by
  rw [codifHere] at h
  split at h
  next =>
    obtain ⟨pre, post, hdrop, hpre, hlast, hlen, hdig⟩ := findColon_spec (s.drop 12) code h
    refine ⟨s.take 12 ++ pre, post, ?_, by simp [hpre], ?_, hlen, hdig⟩
    · conv_lhs => rw [← List.take_append_drop 12 s]
      rw [hdrop]
      simp
    · rw [noDigitLast, List.getLast?_append_of_ne_nil _ hpre]
      rw [noDigitLast] at hlast
      exact hlast
  next => cases h

lemma searchCodif_spec (s : Str) :
    ∀ code, searchCodif s = some code →
      ∃ pre post, s = pre ++ code ++ post ∧ pre ≠ [] ∧ noDigitLast pre = true
        ∧ code.length = 5 ∧ code.all Char.isDigit = true := by
  induction s with
  | nil => intro code h; cases h
  | cons c rest ih =>
    intro code h
    rw [searchCodif] at h
    cases hch : codifHere (c :: rest) with
    | some code2 =>
      rw [hch] at h
      have hcode : code = code2 := Option.some.inj h.symm
      subst hcode
      exact codifHere_spec (c :: rest) code hch
    | none =>
      rw [hch] at h
      obtain ⟨pre, post, hrest, hpre, hlast, hlen, hdig⟩ := ih code h
      exact ⟨c :: pre, post, by rw [hrest]; rfl, by simp,
        by rw [noDigitLast_cons c pre hpre]; exact hlast, hlen, hdig⟩

lemma headNotWord_spec (l : Str) (h : headNotWord l = true) :
    ∀ c ∈ l.head?, wordChar c = false := by
  intro c hc
  rw [headNotWord] at h
  cases hl : l.head? with
  | none => rw [hl] at hc; cases hc
  | some d =>
    rw [hl] at h hc
    simp only [Option.mem_def, Option.some.injEq] at hc
    subst hc
    simpa using h

lemma code5At_spec (prev : Option Char) (s code : Str) (h : code5At prev s = some code) :
    ∃ post, s = code ++ post ∧ code.length = 5 ∧ code.all Char.isDigit = true
      ∧ (∀ p ∈ prev, wordChar p = false)
      ∧ (∀ c ∈ post.head?, wordChar c = false) := by
  rw [code5At] at h
  split at h
  next hcond =>
    simp only [Bool.and_eq_true] at hcond
    have hcode : code = s.take 5 := (Option.some.inj h).symm
    subst hcode
    refine ⟨s.drop 5, (List.take_append_drop 5 s).symm, ?_, hcond.1.1.2, ?_, ?_⟩
    · have h5 : 5 ≤ s.length := by
        have := hcond.1.1.1
        simpa using this
      simp [List.length_take]
      omega
    · intro p hp
      cases prev with
      | none => cases hp
      | some q =>
        simp only [Option.mem_def, Option.some.injEq] at hp
        subst hp
        have := hcond.1.2
        rw [prevNotWord] at this
        simpa using this
    · exact headNotWord_spec _ hcond.2
  next => cases h

lemma findCode5Aux_spec (s : Str) :
    ∀ (prev : Option Char) (code : Str), findCode5Aux prev s = some code →
      ∃ pre post, s = pre ++ code ++ post ∧ code.length = 5 ∧ code.all Char.isDigit = true
        ∧ (pre = [] → ∀ p ∈ prev, wordChar p = false)
        ∧ (∀ c ∈ pre.getLast?, wordChar c = false)
        ∧ (∀ c ∈ post.head?, wordChar c = false) := by
  induction s with
  | nil => intro prev code h; cases h
  | cons c rest ih =>
    intro prev code h
    rw [findCode5Aux] at h
    cases h5 : code5At prev (c :: rest) with
    | some code2 =>
      rw [h5] at h
      have hcode : code = code2 := Option.some.inj h.symm
      subst hcode
      obtain ⟨post, heq, hlen, hdig, hprev, hpost⟩ := code5At_spec prev (c :: rest) code h5
      refine ⟨[], post, by simpa using heq, hlen, hdig, fun _ => hprev, ?_, hpost⟩
      intro x hx
      simp at hx
    | none =>
      rw [h5] at h
      obtain ⟨pre, post, hrest, hlen, hdig, hprev, hlast, hpost⟩ := ih (some c) code h
      refine ⟨c :: pre, post, by rw [hrest]; rfl, hlen, hdig, ?_, ?_, hpost⟩
      · intro hc
        simp at hc
      · cases hp : pre with
        | nil =>
          intro x hx
          simp only [hp, List.getLast?_singleton, Option.mem_def, Option.some.injEq] at hx
          subst hx
          exact hprev hp c (by simp)
        | cons d t =>
          intro x hx
          rw [List.getLast?_cons_cons] at hx
          rw [hp] at hlast
          exact hlast x hx

/-- C2 (counterexample) — On the page text `Codification : /123456` the
labelled path extracts the code `12345`, whose only occurrence in the
text is immediately followed by the digit `6`: an extracted code is not
always a maximal run of five digits. -/
theorem c2_maximal_run_counterexample :
    extract_code ("Codification : /123456".toList) = some ("12345".toList)
    ∧ ¬ MaximalRun ("12345".toList) ("Codification : /123456".toList) := by
  constructor
  · rfl
  · decide

/-- C2 (amended) — Every extracted code is exactly five digits and
occurs in the text not immediately preceded by a digit (the labelled
path places it after a slash or whitespace, the fallback path checks a
word boundary); only when the labelled `Codification` path does not
match is the code guaranteed to be a maximal five-digit run, the
labelled path admitting a digit right after the match. -/
theorem c2_code_boundaries (txt code : Str) (h : extract_code txt = some code) :
    code.length = 5 ∧ code.all Char.isDigit = true
    ∧ (∃ i, i < txt.length ∧ (txt.drop i).take 5 = code
        ∧ noDigitLast (txt.take i) = true)
    ∧ (searchCodif txt = none → MaximalRun code txt) := by
  rw [extract_code] at h
  cases hsc : searchCodif txt with
  | some code2 =>
    rw [hsc] at h
    have hcode : code = code2 := Option.some.inj h.symm
    subst hcode
    obtain ⟨pre, post, heq, hpre, hlast, hlen, hdig⟩ := searchCodif_spec txt code hsc
    refine ⟨hlen, hdig, ?_, ?_⟩
    · refine ⟨pre.length, ?_, ?_, ?_⟩
      · rw [heq]
        simp only [List.length_append]
        have : 0 < code.length := by omega
        omega
      · rw [heq, List.append_assoc, List.drop_left, ← hlen, List.take_left]
      · rw [heq, List.append_assoc, List.take_left]
        exact hlast
    · intro hnone
      simp at hnone
  | none =>
    rw [hsc] at h
    obtain ⟨pre, post, heq, hlen, hdig, _, hlast, hpost⟩ := findCode5Aux_spec txt none code h
    have hlastd : noDigitLast pre = true := by
      rw [noDigitLast]
      cases hl : pre.getLast? with
      | none => rfl
      | some x =>
        have hw := hlast x (by rw [hl]; rfl)
        cases hd : x.isDigit with
        | false => simp [hd]
        | true => rw [digit_wordChar x hd] at hw; cases hw
    have hpostd : noDigitHead post = true := by
      rw [noDigitHead]
      cases hl : post.head? with
      | none => rfl
      | some x =>
        have hw := hpost x (by rw [hl]; rfl)
        cases hd : x.isDigit with
        | false => simp [hd]
        | true => rw [digit_wordChar x hd] at hw; cases hw
    refine ⟨hlen, hdig, ?_, ?_⟩
    · refine ⟨pre.length, ?_, ?_, ?_⟩
      · rw [heq]
        simp only [List.length_append]
        have : 0 < code.length := by omega
        omega
      · rw [heq, List.append_assoc, List.drop_left, ← hlen, List.take_left]
      · rw [heq, List.append_assoc, List.take_left]
        exact hlastd
    · intro _
      refine ⟨pre.length, ?_, ?_, ?_, ?_⟩
      · rw [heq]
        simp only [List.length_append]
        have : 0 < code.length := by omega
        omega
      · rw [heq, List.append_assoc, List.drop_left, List.take_left]
      · rw [heq, List.append_assoc, List.take_left]
        exact hlastd
      · rw [heq, List.append_assoc]
        have hdrop : (pre ++ (code ++ post)).drop (pre.length + code.length) = post := by
          rw [← List.length_append pre code, ← List.append_assoc, List.drop_left]
        rw [hdrop]
        exact hpostd

/-- Witness for C2 (amended): the standalone text `ref 12345` goes
through the fallback path; the extracted `12345` is five digits, not
preceded by a digit, and a maximal run. -/
theorem c2_code_boundaries_witness :
    ("12345".toList).length = 5 ∧ ("12345".toList).all Char.isDigit = true
    ∧ (∃ i, i < ("ref 12345".toList).length
        ∧ (("ref 12345".toList).drop i).take 5 = ("12345".toList)
        ∧ noDigitLast (("ref 12345".toList).take i) = true)
    ∧ (searchCodif ("ref 12345".toList) = none
        → MaximalRun ("12345".toList) ("ref 12345".toList)) :=
  c2_code_boundaries ("ref 12345".toList) ("12345".toList) (by rfl)

/-! ## C10: totality of the field extractor -/

lemma getLine_ok (lines : List Str) (i : Nat) (h : i < lines.length) :
    getLine lines i = .ok (lines.getD i []) := by
  have hg : lines.get? i = some (lines.getD i []) := by
    rw [List.get?_eq_getElem?, List.getElem?_eq_getElem h, List.getD_eq_getElem lines [] h]
  rw [getLine, hg]

lemma scan45_ok (lines : List Str) :
    ∀ idxs : List Nat, (∀ i ∈ idxs, i + 3 < lines.length) →
      ∃ r, scan45 lines idxs = .ok r := by
  intro idxs
  induction idxs with
  | nil => intro _; exact ⟨none, rfl⟩
  | cons i is ih =>
    intro hb
    have hi := hb i (List.mem_cons_self i is)
    have h0 := getLine_ok lines i (by omega)
    have h1 := getLine_ok lines (i + 1) (by omega)
    have h2 := getLine_ok lines (i + 2) (by omega)
    have h3 := getLine_ok lines (i + 3) (by omega)
    have hrest : ∀ j ∈ is, j + 3 < lines.length :=
      fun j hj => hb j (List.mem_cons_of_mem i hj)
    simp only [scan45, h0, h1, h2, h3]
    split
    · exact ⟨_, rfl⟩
    · split
      next h4 =>
        cases hg : getLine lines (i + 4) with
        | error e =>
          rw [getLine_ok lines (i + 4) h4] at hg
          cases hg
        | ok l4 =>
          simp only [hg]
          split
          · exact ⟨_, rfl⟩
          · exact ih hrest
      next => exact ih hrest

lemma fallbackStep_mem (idx : Nat) (acc : Option (Str × Nat)) (ln : Str)
    (p : Str × Nat) (h : p ∈ fallbackStep idx acc ln) : p ∈ acc ∨ p = (ln, idx) := by
  rw [fallbackStep.eq_def] at h
  split at h
  · exact Or.inl h
  · split at h
    · split at h
      next => simp only [Option.mem_def, Option.some.injEq] at h; exact Or.inr h.symm
      next =>
        split at h
        · simp only [Option.mem_def, Option.some.injEq] at h; exact Or.inr h.symm
        · exact Or.inl h
    · exact Or.inl h

lemma fallbackBestAux_bound :
    ∀ (l : List Str) (idx : Nat) (acc : Option (Str × Nat)) (b : Str) (bi : Nat),
      (∀ p ∈ acc, p.2 < idx) → fallbackBestAux idx acc l = some (b, bi) →
        bi < idx + l.length := by
  intro l
  induction l with
  | nil =>
    intro idx acc b bi hacc h
    have := hacc (b, bi) h
    simpa using this
  | cons ln rest ih =>
    intro idx acc b bi hacc h
    rw [fallbackBestAux] at h
    have hacc' : ∀ p ∈ fallbackStep idx acc ln, p.2 < idx + 1 := by
      intro p hp
      rcases fallbackStep_mem idx acc ln p hp with hm | hm
      · have := hacc p hm; omega
      · rw [hm]; omega
    have := ih (idx + 1) _ b bi hacc' h
    simp only [List.length_cons]
    omega

lemma fallbackBest_bound (lines : List Str) (b : Str) (bi : Nat)
    (h : fallbackBest lines = some (b, bi)) : bi < lines.length ∧ bi < 120 := by
  have h1 := fallbackBestAux_bound (lines.take 120) 0 none b bi (by intro p hp; cases hp) h
  have h2 : (lines.take 120).length ≤ lines.length := by
    simp [List.length_take]
  have h3 : (lines.take 120).length ≤ 120 := by
    simp [List.length_take]
  omega

lemma fallbackNomE_ok (lines : List Str) : ∃ r, fallbackNomE lines = .ok r := by
  cases hb : fallbackBest lines with
  | none => exact ⟨none, by simp only [fallbackNomE, hb]⟩
  | some p =>
    obtain ⟨b, bi⟩ := p
    have hbound := fallbackBest_bound lines b bi hb
    simp only [fallbackNomE, hb]
    split
    next hcond =>
      cases hg : getLine lines (bi - 1) with
      | error e =>
        rw [getLine_ok lines (bi - 1) (by omega)] at hg
        cases hg
      | ok prevLine =>
        simp only [hg]
        exact ⟨_, rfl⟩
    next => exact ⟨_, rfl⟩

lemma fallbackNomE_take (lines : List Str) :
    fallbackNomE lines = fallbackNomE (lines.take 120) := by
  have hbest : fallbackBest (lines.take 120) = fallbackBest lines := by
    rw [fallbackBest, fallbackBest, List.take_take]
    norm_num
  cases hb : fallbackBest lines with
  | none => simp only [fallbackNomE, hbest, hb]
  | some p =>
    obtain ⟨b, bi⟩ := p
    have hbound := fallbackBest_bound lines b bi hb
    have hget : getLine lines (bi - 1) = getLine (lines.take 120) (bi - 1) := by
      have hbi : bi - 1 < lines.length := by omega
      have hbi3 : bi - 1 < (lines.take 120).length := by
        simp only [List.length_take]
        omega
      rw [getLine_ok lines (bi - 1) hbi, getLine_ok (lines.take 120) (bi - 1) hbi3]
      have heq : (lines.take 120).getD (bi - 1) [] = lines.getD (bi - 1) [] := by
        rw [List.getD_eq_getElem _ [] hbi3, List.getD_eq_getElem _ [] hbi]
        simp [List.getElem_take]
      rw [heq]
    simp only [fallbackNomE, hbest, hb, hget]

/-- C10 — For every page text and every bold-line list the extractor
returns a `PageInfo` without hitting any out-of-bounds line access (the
embedding bounds-checks every line index the source's scans compute);
the operation, code, year and note fields are those of the respective
searches (absent exactly when the search fails), the name is absent only
when both the address-block scans and the fallback produce nothing, and
the fallback consults only the first 120 non-empty lines. -/
theorem c10_extractor_total (txt : Str) (boldLines : List Str) :
    (∃ info, extract_fields_from_text txt boldLines = Except.ok info
      ∧ info.op = searchOp txt ∧ info.code = extract_code txt
      ∧ info.an = maxYear txt ∧ info.note = ("PDF text v20251118-2".toList)
      ∧ (info.nom = none →
          scan45 (linesOf txt) (List.range ((linesOf txt).length - 3)) = .ok none
            ∧ fallbackNomE (linesOf txt) = .ok none))
    ∧ fallbackNomE (linesOf txt) = fallbackNomE ((linesOf txt).take 120) := by
  refine ⟨?_, fallbackNomE_take _⟩
  have hbound : ∀ i ∈ List.range ((linesOf txt).length - 3), i + 3 < (linesOf txt).length := by
    intro i hi
    rw [List.mem_range] at hi
    omega
  obtain ⟨r, hr⟩ := scan45_ok (linesOf txt) _ hbound
  cases htr : truthy r with
  | true =>
    refine ⟨⟨searchOp txt, extract_code txt, r, maxYear txt, ("PDF text v20251118-2".toList)⟩,
      ?_, rfl, rfl, rfl, rfl, ?_⟩
    · simp only [extract_fields_from_text, hr, htr, if_true]
    · intro hn
      have hn2 : r = none := hn
      rw [hn2] at htr
      cases htr
  | false =>
    obtain ⟨fb, hfb⟩ := fallbackNomE_ok (linesOf txt)
    cases hfbv : fb with
    | some f =>
      refine ⟨⟨searchOp txt, extract_code txt, some f, maxYear txt,
        ("PDF text v20251118-2".toList)⟩, ?_, rfl, rfl, rfl, rfl, ?_⟩
      · rw [hfbv] at hfb
        simp only [extract_fields_from_text, hr, htr, Bool.false_eq_true, if_false, hfb]
      · intro hn
        simp at hn
    | none =>
      refine ⟨⟨searchOp txt, extract_code txt, r, maxYear txt,
        ("PDF text v20251118-2".toList)⟩, ?_, rfl, rfl, rfl, rfl, ?_⟩
      · rw [hfbv] at hfb
        simp only [extract_fields_from_text, hr, htr, Bool.false_eq_true, if_false, hfb]
      · intro hn
        rw [hfbv] at hfb
        have hn2 : r = none := hn
        rw [hn2] at hr
        exact ⟨hr, hfb⟩

end AlphaRenamer
